import Mathlib

/-!
The package gofigure: merge of configuration sources and placeholder resolution.

A shallow embedding of `gofigure.go` (package `gofigure`).

Conventions of the embedding.

* A Go `interface{}` value is a `Value`: one constructor per dynamic type that
  the pipeline can meet (`string`, `int`, `bool`, `nil`, a slice, a
  `map[interface{}]interface{}` as produced by the YAML decoder for nested
  documents, and a `*map[string]interface{}` as produced by
  `replacePlaceholders`).
* A Go map is the list of its entries, with pairwise different keys.  A `range`
  loop over a map visits the entries in the order of the list: for a map that
  comes from outside (a decoded document) the list order *is* that order, and
  for a map that the code itself builds the order is chosen by a `Sched`
  before the loop runs.  Statements that hold "for every iteration order"
  quantify over the list order.
* A Go `string` is a `String`; offsets into it count characters.  The two
  patterns only contain ASCII literals, so cutting at a character offset and
  cutting at the corresponding byte offset give the same text.
* A function returning `(T, error)` returns a `Result T`; a failed type
  assertion is `Result.panic`.
* Calls that leave the process (file service, decoder, secret store,
  environment) are fields of `World`, and every call is recorded as an `Event`.
-/

namespace Gofigure

/-- Go `error`, represented by its message. -/
abbrev Error := String

/-- Go `[]byte`. -/
abbrev Bytes := List Nat

/-- Dynamic type of a key of a `map[interface{}]interface{}`. -/
inductive Key where
  | str (s : String)
  | int (n : Int)
  | bool (b : Bool)
  | null
  deriving DecidableEq, Repr

/-- Go `interface{}` values met by the pipeline. -/
inductive Value where
  | str (s : String)
  | int (n : Int)
  | bool (b : Bool)
  | null
  | seq (xs : List Value)
  | map (m : List (Key × Value))
  | strMapPtr (m : List (String × Value))

/-- Outcome of a Go function of type `(T, error)`: the value with a nil error,
a nil value with the error, or a run-time panic. -/
inductive Result (α : Type) where
  | ok (val : α)
  | err (e : Error)
  | panic (msg : String)

/-- Calls made to the outside of the process. -/
inductive Event where
  | read (path : String)
  | parse (key : String)
  | ssm (name : String)
  | env (name : String)
  deriving DecidableEq, Repr

/-- Go `m[k]` with the comma-ok form: the value stored under `k`, if any. -/
def mapGet {κ ν : Type} [DecidableEq κ] : List (κ × ν) → κ → Option ν
  | [], _ => none
  | (k', v) :: rest, k => if k' = k then some v else mapGet rest k

/-- Go `m[k] = v`: overwrite the entry of `k`, or add one. -/
def mapSet {κ ν : Type} [DecidableEq κ] : List (κ × ν) → κ → ν → List (κ × ν)
  | [], k, v => [(k, v)]
  | (k', v') :: rest, k, v =>
    if k' = k then (k, v) :: rest else (k', v') :: mapSet rest k v

/-- Keys of a Go map. -/
def mapKeys {κ ν : Type} (m : List (κ × ν)) : List κ := m.map Prod.fst

/-- The outside of the process. -/
structure World where
  /-- The call `fileService.GetContents(path)`. -/
  getContents : String → Except Error Bytes
  /-- The call `yaml.Unmarshal(bytes, &contents)` into a fresh `map[string]interface{}`. -/
  unmarshal : Bytes → Except Error (List (String × Value))
  /-- The function `strings.ToLower`. -/
  toLower : String → String
  /-- The process environment: `none` for an unset variable. -/
  environ : String → Option String
  /-- The call `ssmsvc.GetParameter` with the given `Name` and `WithDecryption`. -/
  getParameter : String → Bool → Except Error String

/-- Orders in which the runtime ranges over the maps that the code builds. -/
structure Sched where
  /-- The loop `for key := range blobs` in `parseBlobs`. -/
  rangeBlobs : List (String × Bytes) → List (String × Bytes)
  /-- The loop `for _, configFile := range maps` in `mergeConfigs`. -/
  rangeConfigs :
    List (String × List (String × Value)) → List (String × List (String × Value))
  /-- The loop `for keyInterface, value := range *config` on the merged map. -/
  rangeMerged : List (Key × Value) → List (Key × Value)

/-- A schedule only reorders: every loop visits each entry exactly once. -/
structure Sched.Valid (s : Sched) : Prop where
  blobs : ∀ l, (s.rangeBlobs l).Perm l
  configs : ∀ l, (s.rangeConfigs l).Perm l
  merged : ∀ l, (s.rangeMerged l).Perm l

/-- The function `os.Getenv`: the value of the variable, the empty string when unset. -/
def Getenv (w : World) (name : String) : String :=
  (w.environ name).getD ""

/-- The function `loadSSMParameter`: one `GetParameter` call with decryption requested. -/
def loadSSMParameter (w : World) (paramName : String) : Except Error String :=
  let withDecryption := true
  match w.getParameter paramName withDecryption with
  | .error err => .error err
  | .ok param => .ok param

/-! ## The patterns `(^|\A)?(ssm:)` and `(^|\A)?(env:)` -/

/-- Literal part of `ssmPattern`. -/
def ssmPattern : List Char := "ssm:".toList

/-- Literal part of `envPattern`. -/
def envPattern : List Char := "env:".toList

/-- Match of `(^|\A)?(lit)` that starts at offset `pos`, where `rest` is the
text from `pos` on.  The first group is optional: either it matches the empty
string at the beginning of the text, or it is skipped; in both cases the
literal must follow at `pos`.  The match is `[pos, pos + |lit|)`. -/
def matchAt (lit : List Char) (pos : Nat) (rest : List Char) : Option (Nat × Nat) :=
  let withAnchor := pos == 0 && lit.isPrefixOf rest
  let withoutAnchor := lit.isPrefixOf rest
  if withAnchor || withoutAnchor then some (pos, pos + lit.length) else none

/-- Leftmost match, scanning start offsets from `pos` upwards. -/
def findFrom (lit : List Char) : Nat → List Char → Option (Nat × Nat)
  | pos, [] => matchAt lit pos []
  | pos, c :: cs =>
    match matchAt lit pos (c :: cs) with
    | some loc => some loc
    | none => findFrom lit (pos + 1) cs

/-- The method `pattern.FindStringIndex(s)`: location of the leftmost match, or nil. -/
def FindStringIndex (lit : List Char) (s : String) : Option (Nat × Nat) :=
  findFrom lit 0 s.toList

/-- Go `s[i:]`. -/
def sliceFrom (s : String) (i : Nat) : String := String.mk (s.toList.drop i)

/-! ## The pipeline -/

/-- The inner loop of `mergeConfigs`: `config[key] = value` for every entry
of one source. -/
def mergeLoop (config : List (Key × Value)) (configFile : List (String × Value)) :
    List (Key × Value) :=
  configFile.foldl (fun config kv => mapSet config (Key.str kv.1) kv.2) config

/-- The outer loop of `mergeConfigs`, started with the map `config`. -/
def mergeFrom (config : List (Key × Value))
    (maps : List (String × List (String × Value))) : List (Key × Value) :=
  maps.foldl (fun config configFile => mergeLoop config configFile.2) config

/-- The function `mergeConfigs`: every entry of every source is stored in one map, in the
order in which the sources are ranged over. -/
def mergeConfigs (maps : List (String × List (String × Value))) : List (Key × Value) :=
  mergeFrom [] maps

mutual
/-- The body of the loop of `replacePlaceholders` for one value: what is stored
in `mapped` under the current key. -/
def replaceValue (w : World) : Value → List Event × Result Value
  | .map unboxedMap =>
    match replaceLoop w unboxedMap [] with
    | (t, .ok inner) => (t, .ok (.strMapPtr inner))
    | (t, .err err) => (t, .err err)
    | (t, .panic msg) => (t, .panic msg)
  | .str param =>
    match FindStringIndex ssmPattern param with
    | some index =>
      let ssmParamName := sliceFrom param index.2
      match loadSSMParameter w ssmParamName with
      | .error err => ([Event.ssm ssmParamName], .err err)
      | .ok ssmParameter => ([Event.ssm ssmParamName], .ok (.str ssmParameter))
    | none =>
      match FindStringIndex envPattern param with
      | some index =>
        let envParamName := sliceFrom param index.2
        let envParam := Getenv w envParamName
        ([Event.env envParamName], .ok (.str envParam))
      | none => ([], .ok (.str param))
  | _ => ([], .panic "interface conversion: interface {} is not string")
/-- The loop of `replacePlaceholders` over the entries still to visit, with the
map `mapped` built so far. -/
def replaceLoop (w : World) :
    List (Key × Value) → List (String × Value) →
      List Event × Result (List (String × Value))
  | [], mapped => ([], .ok mapped)
  | (keyInterface, value) :: rest, mapped =>
    match keyInterface with
    | .str key =>
      match replaceValue w value with
      | (t, .ok resolved) =>
        let r := replaceLoop w rest (mapSet mapped key resolved)
        (t ++ r.1, r.2)
      | (t, .err err) => (t, .err err)
      | (t, .panic msg) => (t, .panic msg)
    | _ => ([], .panic "interface conversion: interface {} is not string")
end

/-- The function `replacePlaceholders`: the loop started with an empty map. -/
def replacePlaceholders (w : World) (config : List (Key × Value)) :
    List Event × Result (List (String × Value)) :=
  replaceLoop w config []

/-- The loop of `readFiles` over the file names still to read, with the map
`blobs` built so far. -/
def readLoop (w : World) (dirname : String) :
    List String → List (String × Bytes) → List Event × Result (List (String × Bytes))
  | [], blobs => ([], .ok blobs)
  | filename :: rest, blobs =>
    let path := dirname ++ "/" ++ filename
    match w.getContents path with
    | .error err => ([Event.read path], .err err)
    | .ok file =>
      let r := readLoop w dirname rest (mapSet blobs (w.toLower filename) file)
      (Event.read path :: r.1, r.2)

/-- The function `readFiles`: the loop started with an empty map. -/
def readFiles (w : World) (dirname : String) (configFiles : List String) :
    List Event × Result (List (String × Bytes)) :=
  readLoop w dirname configFiles []

/-- Go `a < b` on strings: lexicographic order of the code units. -/
def lessChars : List Char → List Char → Bool
  | [], [] => false
  | [], _ :: _ => true
  | _ :: _, [] => false
  | a :: as, b :: bs =>
    if a.toNat < b.toNat then true
    else if b.toNat < a.toNat then false
    else lessChars as bs

/-- The method `sort.StringSlice.Less`. -/
def Less (a b : String) : Bool := lessChars a.toList b.toList

/-- The call `sort.Sort(sort.Reverse(sort.StringSlice(keys)))`: descending order. -/
def sortReverse (keys : List String) : List String :=
  keys.insertionSort (fun a b => Less a b = false)

/-- The second loop of `parseBlobs`, over the sorted keys still to decode, with
the map `configs` built so far. -/
def parseLoop (w : World) (blobs : List (String × Bytes)) :
    List String → List (String × List (String × Value)) →
      List Event × Result (List (String × List (String × Value)))
  | [], configs => ([], .ok configs)
  | key :: rest, configs =>
    let bytes := (mapGet blobs key).getD []
    match w.unmarshal bytes with
    | .error err => ([Event.parse key], .err err)
    | .ok contents =>
      let r := parseLoop w blobs rest (mapSet configs key contents)
      (Event.parse key :: r.1, r.2)

/-- The function `parseBlobs`: the keys are collected, sorted and decoded in
that order. -/
def parseBlobs (w : World) (s : Sched) (blobs : List (String × Bytes)) :
    List Event × Result (List (String × List (String × Value))) :=
  let keys := mapKeys (s.rangeBlobs blobs)
  parseLoop w blobs (sortReverse keys) []

/-- The struct `Gofigure`. -/
structure Config where
  configuration : List (String × Value)

/-- The function `Build`. -/
def Build (w : World) (s : Sched) (dirname : String) (configFiles : List String) :
    List Event × Result Config :=
  match readFiles w dirname configFiles with
  | (t₁, .err err) => (t₁, .err err)
  | (t₁, .panic msg) => (t₁, .panic msg)
  | (t₁, .ok blobs) =>
    match parseBlobs w s blobs with
    | (t₂, .err err) => (t₁ ++ t₂, .err err)
    | (t₂, .panic msg) => (t₁ ++ t₂, .panic msg)
    | (t₂, .ok configs) =>
      let configWithPlaceholders := mergeConfigs (s.rangeConfigs configs)
      match replacePlaceholders w (s.rangeMerged configWithPlaceholders) with
      | (t₃, .err err) => (t₁ ++ t₂ ++ t₃, .err err)
      | (t₃, .panic msg) => (t₁ ++ t₂ ++ t₃, .panic msg)
      | (t₃, .ok config) => (t₁ ++ t₂ ++ t₃, .ok ⟨config⟩)

/-- The schedule that ranges over every built map in insertion order. -/
def Sched.insertion : Sched := ⟨id, id, id⟩

/-- The schedule that ranges over every built map in reverse insertion order. -/
def Sched.reversed : Sched := ⟨List.reverse, List.reverse, List.reverse⟩

/-! ## Worlds and inputs used by the concrete evaluations -/

/-- ASCII lower-casing, which agrees with `strings.ToLower` on ASCII names. -/
def asciiLower (s : String) : String := String.mk (s.toList.map Char.toLower)

/-- A directory `samples` holding `config.yml` (username `postgres`),
`config.dev.yml` (username `devuser`) and `config.prod.yml` (a nested
database password kept in the secret store); the only variable set is
`MY_VAR` and the secret store knows only the parameter `foo`. -/
def sampleWorld : World where
  getContents := fun path =>
    if path = "samples/config.yml" then .ok [1]
    else if path = "samples/config.dev.yml" then .ok [2]
    else if path = "samples/config.prod.yml" then .ok [3]
    else .error "open: no such file or directory"
  unmarshal := fun bytes =>
    if bytes = [1] then .ok [("username", .str "postgres")]
    else if bytes = [2] then .ok [("username", .str "devuser")]
    else if bytes = [3] then
      .ok [("db", .map [(.str "password", .str "ssm:/prod/db_password")])]
    else .error "yaml: unmarshal errors"
  toLower := asciiLower
  environ := fun name => if name = "MY_VAR" then some "hello" else none
  getParameter := fun name _ =>
    if name = "foo" then .ok "secret" else .error "ParameterNotFound"

/-- The source `{a: {x: 1, y: 2}}`. -/
def lowerSource : String × List (String × Value) :=
  ("lower", [("a", .map [(.str "x", .int 1), (.str "y", .int 2)])])

/-- The source `{a: {y: 3}}`. -/
def higherSource : String × List (String × Value) :=
  ("higher", [("a", .map [(.str "y", .int 3)])])

/-- The parsed `config.yml` of `sampleWorld`. -/
def baseSource : String × List (String × Value) :=
  ("config.yml", [("username", .str "postgres")])

/-- The parsed `config.dev.yml` of `sampleWorld`. -/
def devSource : String × List (String × Value) :=
  ("config.dev.yml", [("username", .str "devuser")])

/-- The first of two optional values that is present. -/
def firstSome {α : Type} (a b : Option α) : Option α :=
  match a with
  | some v => some v
  | none => b

/-- Value that the source visited last among those holding `k` has at `k`. -/
def winner : List (String × List (String × Value)) → String → Option Value
  | [], _ => none
  | src :: rest, k => firstSome (winner rest k) (mapGet src.2 k)

/-- Two sources share no top-level key. -/
def DisjointKeys (a b : String × List (String × Value)) : Prop :=
  ∀ k, k ∈ mapKeys a.2 → k ∉ mapKeys b.2

mutual
/-- The string `leaf` is a leaf of the value, at some nesting depth. -/
def hasLeaf (leaf : String) : Value → Bool
  | .str s => decide (s = leaf)
  | .map m => hasLeafIn leaf m
  | _ => false
/-- The string `leaf` is a leaf of the map, at some nesting depth. -/
def hasLeafIn (leaf : String) : List (Key × Value) → Bool
  | [] => false
  | (_, v) :: rest => hasLeaf leaf v || hasLeafIn leaf rest
end

mutual
/-- The value is a string or a map whose keys are strings and whose values are
again such values. -/
def stringTree : Value → Bool
  | .str _ => true
  | .map m => stringTreeIn m
  | _ => false
/-- Every key of the map is a string and every value is a string or such a map. -/
def stringTreeIn : List (Key × Value) → Bool
  | [] => true
  | (.str _, v) :: rest => stringTree v && stringTreeIn rest
  | _ :: _ => false
end

mutual
/-- The string `leaf` is a leaf of a resolved value, at some nesting depth. -/
def leafOf (leaf : String) : Value → Bool
  | .str s => decide (s = leaf)
  | .strMapPtr m => leafOfIn leaf m
  | _ => false
/-- The string `leaf` is a leaf of a resolved map, at some nesting depth. -/
def leafOfIn (leaf : String) : List (String × Value) → Bool
  | [] => false
  | (_, v) :: rest => leafOf leaf v || leafOfIn leaf rest
end

mutual
/-- The invariant of Go maps, at every depth: no key occurs twice. -/
def uniqueKeys : Value → Bool
  | .map m => uniqueKeysIn m
  | _ => true
/-- No key of the map occurs twice, nor in any map nested in it. -/
def uniqueKeysIn : List (Key × Value) → Bool
  | [] => true
  | (k, v) :: rest => decide (k ∉ mapKeys rest) && (uniqueKeys v && uniqueKeysIn rest)
end

mutual
/-- A resolved value has the shape of the value it comes from: a string for a
string, and for a map a map with the same keys and values of the same shape. -/
def sameShape : Value → Value → Bool
  | .str _, .str _ => true
  | .map m, .strMapPtr m' => sameShapeIn m m'
  | _, _ => false
/-- The two maps have the same keys, entry by entry, and values of the same
shape. -/
def sameShapeIn : List (Key × Value) → List (String × Value) → Bool
  | [], [] => true
  | (k, v) :: rest, (k', v') :: rest' =>
    decide (k = Key.str k') && (sameShape v v' && sameShapeIn rest rest')
  | _, _ => false
end

/-- The text `s` is `pre ++ lit ++ post`, and no occurrence of `lit` in `s`
starts further left. -/
def Leftmost (lit pre post s : List Char) : Prop :=
  s = pre ++ lit ++ post ∧ ∀ pre' post', s = pre' ++ lit ++ post' → pre.length ≤ pre'.length

/-- A world in which the variable `INDIRECT` holds the text `ssm:foo` and the
secret `chained` holds the text `env:HOME`. -/
def indirectWorld : World where
  getContents := fun _ => .error "open: no such file or directory"
  unmarshal := fun _ => .error "yaml: unmarshal errors"
  toLower := asciiLower
  environ := fun name => if name = "INDIRECT" then some "ssm:foo" else none
  getParameter := fun name _ =>
    if name = "chained" then .ok "env:HOME" else .error "ParameterNotFound"

/-- The content that a successful `GetContents` returns for a listed file. -/
def contentOf (w : World) (dirname filename : String) : Bytes :=
  match w.getContents (dirname ++ "/" ++ filename) with
  | .ok file => file
  | .error _ => []

/-- The blob set of the test `TestParseBlob_MultiBlobs`. -/
def multiBlobs : List (String × Bytes) := [("config.dev.yml", [2]), ("config.yml", [1])]

/-- The map that `readFiles` builds when every read succeeds: each content
stored under the lower-cased name, in listed order, starting from `blobs`. -/
def storedBlobs (w : World) (dirname : String) (configFiles : List String)
    (blobs : List (String × Bytes)) : List (String × Bytes) :=
  configFiles.foldl
    (fun blobs filename => mapSet blobs (w.toLower filename) (contentOf w dirname filename))
    blobs

/-- A directory `conf` on a case-sensitive file system, holding `App.yml` and
`app.yml` with different contents. -/
def caseWorld : World where
  getContents := fun path =>
    if path = "conf/App.yml" then .ok [10]
    else if path = "conf/app.yml" then .ok [20]
    else .error "open: no such file or directory"
  unmarshal := fun _ => .ok []
  toLower := asciiLower
  environ := fun _ => none
  getParameter := fun _ _ => .error "ParameterNotFound"

/-- The string begins with neither `ssm:` nor `env:`. -/
def unprefixed (s : String) : Bool :=
  !ssmPattern.isPrefixOf s.toList && !envPattern.isPrefixOf s.toList

/-! ## Go maps -/

theorem mapGet_mapSet {κ ν : Type} [DecidableEq κ] (m : List (κ × ν)) (k k' : κ) (v : ν) :
    mapGet (mapSet m k v) k' = if k = k' then some v else mapGet m k' := by
  induction m with
  | nil => simp [mapSet, mapGet]
  | cons e rest ih =>
    obtain ⟨k0, v0⟩ := e
    by_cases h0 : k0 = k
    · subst h0
      by_cases h1 : k0 = k' <;> simp [mapSet, mapGet, h1]
    · by_cases h1 : k0 = k'
      · subst h1
        simp [mapSet, mapGet, h0, Ne.symm h0]
      · simp [mapSet, mapGet, h0, h1, ih]

theorem mem_mapKeys_mapSet {κ ν : Type} [DecidableEq κ] (m : List (κ × ν)) (k x : κ) (v : ν) :
    x ∈ mapKeys (mapSet m k v) ↔ x = k ∨ x ∈ mapKeys m := by
  induction m with
  | nil => simp [mapSet, mapKeys]
  | cons e rest ih =>
    obtain ⟨k0, v0⟩ := e
    by_cases h0 : k0 = k
    · subst h0
      simp [mapSet, mapKeys]
    · have ih' := ih
      simp only [mapKeys] at ih'
      simp only [mapSet, h0, if_false, mapKeys, List.map_cons, List.mem_cons, ih']
      tauto

theorem nodup_mapKeys_mapSet {κ ν : Type} [DecidableEq κ] (m : List (κ × ν)) (k : κ) (v : ν)
    (h : (mapKeys m).Nodup) : (mapKeys (mapSet m k v)).Nodup := by
  induction m with
  | nil => simp [mapSet, mapKeys]
  | cons e rest ih =>
    obtain ⟨k0, v0⟩ := e
    have hk : k0 ∉ mapKeys rest ∧ (mapKeys rest).Nodup := by
      simpa [mapKeys] using h
    by_cases h0 : k0 = k
    · subst h0
      simpa [mapSet, mapKeys] using h
    · have hmem := mem_mapKeys_mapSet rest k k0 v
      have hnd := ih hk.2
      have hnot : k0 ∉ mapKeys (mapSet rest k v) := by
        rw [hmem]
        rintro (h1 | h1)
        · exact h0 h1
        · exact hk.1 h1
      simp only [mapSet, h0, if_false]
      simp only [mapKeys, List.map_cons, List.nodup_cons]
      exact ⟨hnot, hnd⟩

theorem mapGet_eq_none {κ ν : Type} [DecidableEq κ] (m : List (κ × ν)) (k : κ) :
    mapGet m k = none ↔ k ∉ mapKeys m := by
  induction m with
  | nil => simp [mapGet, mapKeys]
  | cons e rest ih =>
    obtain ⟨k0, v0⟩ := e
    have ih' := ih
    simp only [mapKeys] at ih'
    by_cases h0 : k0 = k
    · simp [mapGet, mapKeys, h0]
    · simp [mapGet, mapKeys, h0, Ne.symm h0, ih']

theorem mem_of_mapGet {κ ν : Type} [DecidableEq κ] (m : List (κ × ν)) (k : κ) (v : ν)
    (h : mapGet m k = some v) : (k, v) ∈ m := by
  induction m with
  | nil => simp [mapGet] at h
  | cons e rest ih =>
    obtain ⟨k0, v0⟩ := e
    by_cases h0 : k0 = k
    · simp [mapGet, h0] at h
      simp [h0, h]
    · simp only [mapGet, h0, if_false] at h
      exact List.mem_cons_of_mem _ (ih h)

theorem mapGet_of_mem {κ ν : Type} [DecidableEq κ] (m : List (κ × ν)) (k : κ) (v : ν)
    (hnd : (mapKeys m).Nodup) (h : (k, v) ∈ m) : mapGet m k = some v := by
  induction m with
  | nil => simp at h
  | cons e rest ih =>
    obtain ⟨k0, v0⟩ := e
    have hk : k0 ∉ mapKeys rest ∧ (mapKeys rest).Nodup := by
      simpa [mapKeys] using hnd
    rcases List.mem_cons.1 h with h1 | h1
    · cases h1
      simp [mapGet]
    · have hmem : k ∈ mapKeys rest := List.mem_map.2 ⟨(k, v), h1, rfl⟩
      have h0 : k0 ≠ k := fun h0 => hk.1 (h0 ▸ hmem)
      simp only [mapGet, h0, if_false]
      exact ih hk.2 h1

theorem mem_iff_mapGet {κ ν : Type} [DecidableEq κ] (m : List (κ × ν)) (k : κ) (v : ν)
    (hnd : (mapKeys m).Nodup) : (k, v) ∈ m ↔ mapGet m k = some v :=
  ⟨mapGet_of_mem m k v hnd, mem_of_mapGet m k v⟩

/-! ## `mergeConfigs` -/

theorem mergeLoop_cons (config : List (Key × Value)) (e : String × Value)
    (rest : List (String × Value)) :
    mergeLoop config (e :: rest) = mergeLoop (mapSet config (Key.str e.1) e.2) rest := rfl

theorem mergeFrom_cons (config : List (Key × Value)) (src : String × List (String × Value))
    (rest : List (String × List (String × Value))) :
    mergeFrom config (src :: rest) = mergeFrom (mergeLoop config src.2) rest := rfl

theorem firstSome_assoc {α : Type} (a b c : Option α) :
    firstSome a (firstSome b c) = firstSome (firstSome a b) c := by
  cases a <;> rfl

theorem mapGet_mergeLoop (config : List (Key × Value)) (src : List (String × Value))
    (k : String) (hnd : (mapKeys src).Nodup) :
    mapGet (mergeLoop config src) (Key.str k)
      = firstSome (mapGet src k) (mapGet config (Key.str k)) := by
  induction src generalizing config with
  | nil => rfl
  | cons e rest ih =>
    obtain ⟨k0, v0⟩ := e
    have hk : k0 ∉ mapKeys rest ∧ (mapKeys rest).Nodup := by
      simpa [mapKeys] using hnd
    rw [mergeLoop_cons, ih _ hk.2, mapGet_mapSet]
    by_cases h0 : k0 = k
    · subst h0
      have hnone : mapGet rest k0 = none := (mapGet_eq_none rest k0).2 hk.1
      simp [hnone, mapGet, firstSome]
    · have h1 : Key.str k0 ≠ Key.str k := fun h => h0 (Key.str.inj h)
      simp [mapGet, h0, h1]

theorem mapGet_mergeLoop_other (config : List (Key × Value)) (src : List (String × Value))
    (key : Key) (hkey : ∀ k, key ≠ Key.str k) :
    mapGet (mergeLoop config src) key = mapGet config key := by
  induction src generalizing config with
  | nil => rfl
  | cons e rest ih =>
    rw [mergeLoop_cons, ih, mapGet_mapSet]
    simp [Ne.symm (hkey e.1)]

theorem nodup_mergeLoop (config : List (Key × Value)) (src : List (String × Value))
    (h : (mapKeys config).Nodup) : (mapKeys (mergeLoop config src)).Nodup := by
  induction src generalizing config with
  | nil => exact h
  | cons e rest ih =>
    rw [mergeLoop_cons]
    exact ih _ (nodup_mapKeys_mapSet config _ _ h)

theorem mapGet_mergeFrom (config : List (Key × Value))
    (maps : List (String × List (String × Value))) (k : String)
    (hwf : ∀ src ∈ maps, (mapKeys src.2).Nodup) :
    mapGet (mergeFrom config maps) (Key.str k)
      = firstSome (winner maps k) (mapGet config (Key.str k)) := by
  induction maps generalizing config with
  | nil => rfl
  | cons src rest ih =>
    rw [mergeFrom_cons, ih _ (fun x hx => hwf x (List.mem_cons_of_mem _ hx)),
      mapGet_mergeLoop _ _ _ (hwf src (List.mem_cons_self _ _)), firstSome_assoc]
    rfl

theorem mapGet_mergeFrom_other (config : List (Key × Value))
    (maps : List (String × List (String × Value))) (key : Key)
    (hkey : ∀ k, key ≠ Key.str k) :
    mapGet (mergeFrom config maps) key = mapGet config key := by
  induction maps generalizing config with
  | nil => rfl
  | cons src rest ih =>
    rw [mergeFrom_cons, ih, mapGet_mergeLoop_other _ _ _ hkey]

theorem nodup_mergeFrom (config : List (Key × Value))
    (maps : List (String × List (String × Value)))
    (h : (mapKeys config).Nodup) : (mapKeys (mergeFrom config maps)).Nodup := by
  induction maps generalizing config with
  | nil => exact h
  | cons src rest ih =>
    rw [mergeFrom_cons]
    exact ih _ (nodup_mergeLoop config _ h)

theorem mapGet_mergeConfigs (maps : List (String × List (String × Value))) (k : String)
    (hwf : ∀ src ∈ maps, (mapKeys src.2).Nodup) :
    mapGet (mergeConfigs maps) (Key.str k) = winner maps k := by
  unfold mergeConfigs
  rw [mapGet_mergeFrom [] maps k hwf]
  cases winner maps k <;> rfl

theorem nodup_mergeConfigs (maps : List (String × List (String × Value))) :
    (mapKeys (mergeConfigs maps)).Nodup :=
  nodup_mergeFrom [] maps (by simp [mapKeys])

theorem winner_some (maps : List (String × List (String × Value))) (k : String) (v : Value)
    (h : winner maps k = some v) : ∃ src ∈ maps, mapGet src.2 k = some v := by
  induction maps with
  | nil => simp [winner] at h
  | cons src rest ih =>
    simp only [winner] at h
    cases hr : winner rest k with
    | some v' =>
      rw [hr] at h
      simp only [firstSome] at h
      obtain ⟨s, hs, hv⟩ := ih (hr.trans h)
      exact ⟨s, List.mem_cons_of_mem _ hs, hv⟩
    | none =>
      rw [hr] at h
      exact ⟨src, List.mem_cons_self _ _, h⟩

theorem winner_of_disjoint (maps : List (String × List (String × Value))) (k : String)
    (v : Value) (hdisj : maps.Pairwise DisjointKeys)
    (src : String × List (String × Value)) (hsrc : src ∈ maps)
    (hv : mapGet src.2 k = some v) : winner maps k = some v := by
  induction maps with
  | nil => simp at hsrc
  | cons s0 rest ih =>
    obtain ⟨h0, hrest⟩ := List.pairwise_cons.1 hdisj
    rcases List.mem_cons.1 hsrc with h1 | h1
    · subst h1
      have hnone : winner rest k = none := by
        cases hr : winner rest k with
        | none => rfl
        | some v' =>
          obtain ⟨s, hs, hs'⟩ := winner_some rest k v' hr
          have hk : k ∈ mapKeys src.2 := List.mem_map.2 ⟨(k, v), mem_of_mapGet _ _ _ hv, rfl⟩
          have hk' : k ∈ mapKeys s.2 := List.mem_map.2 ⟨(k, v'), mem_of_mapGet _ _ _ hs', rfl⟩
          exact absurd hk' (h0 s hs k hk)
      simp [winner, hnone, firstSome, hv]
    · simp [winner, ih hrest h1, firstSome]

theorem disjointKeys_symm {a b : String × List (String × Value)} (h : DisjointKeys a b) :
    DisjointKeys b a :=
  fun k hb ha => h k ha hb

theorem winner_perm (maps₁ maps₂ : List (String × List (String × Value))) (k : String)
    (hperm : maps₁.Perm maps₂) (hdisj : maps₁.Pairwise DisjointKeys) :
    winner maps₁ k = winner maps₂ k := by
  have hdisj₂ : maps₂.Pairwise DisjointKeys :=
    (hperm.pairwise_iff (fun h => disjointKeys_symm h)).1 hdisj
  cases h₁ : winner maps₁ k with
  | some v =>
    obtain ⟨s, hs, hv⟩ := winner_some maps₁ k v h₁
    exact (winner_of_disjoint maps₂ k v hdisj₂ s (hperm.mem_iff.1 hs) hv).symm
  | none =>
    cases h₂ : winner maps₂ k with
    | none => rfl
    | some v =>
      obtain ⟨s, hs, hv⟩ := winner_some maps₂ k v h₂
      have := winner_of_disjoint maps₁ k v hdisj s (hperm.mem_iff.2 hs) hv
      rw [h₁] at this
      cases this

theorem sched_reversed_valid : Sched.reversed.Valid :=
  ⟨fun l => List.reverse_perm l, fun l => List.reverse_perm l, fun l => List.reverse_perm l⟩

theorem mem_mergeConfigs (maps : List (String × List (String × Value)))
    (hwf : ∀ src ∈ maps, (mapKeys src.2).Nodup) (hdisj : maps.Pairwise DisjointKeys)
    (key : Key) (v : Value) :
    (key, v) ∈ mergeConfigs maps ↔ ∃ src ∈ maps, ∃ k, key = Key.str k ∧ (k, v) ∈ src.2 := by
  rw [mem_iff_mapGet _ _ _ (nodup_mergeConfigs maps)]
  constructor
  · intro h
    by_cases hkey : ∀ k, key ≠ Key.str k
    · have hnone : mapGet (mergeConfigs maps) key = none := by
        unfold mergeConfigs
        rw [mapGet_mergeFrom_other [] maps key hkey]
        rfl
      rw [hnone] at h
      cases h
    · push_neg at hkey
      obtain ⟨k, rfl⟩ := hkey
      rw [mapGet_mergeConfigs maps k hwf] at h
      obtain ⟨src, hsrc, hv⟩ := winner_some maps k v h
      exact ⟨src, hsrc, k, rfl, mem_of_mapGet _ _ _ hv⟩
  · rintro ⟨src, hsrc, k, rfl, hmem⟩
    rw [mapGet_mergeConfigs maps k hwf]
    exact winner_of_disjoint maps k v hdisj src hsrc
      (mapGet_of_mem _ _ _ (hwf src hsrc) hmem)

/-! ## Claims on the merge of sources -/

/-- C1: the value of the later-listed source does not always win.  With
`config.yml` listed before `config.dev.yml`, `Build` returns the username of
`config.yml` when the parsed sources are ranged over with `config.dev.yml`
first, and the username of `config.dev.yml` when they are ranged over in
the other order; both orders are permutations of the same map. -/
theorem build_result_depends_on_range_order :
    Sched.reversed.Valid ∧
    (Build sampleWorld Sched.reversed "samples" ["config.yml", "config.dev.yml"]).2
      = Result.ok ⟨[("username", Value.str "postgres")]⟩ ∧
    (Build sampleWorld Sched.insertion "samples" ["config.yml", "config.dev.yml"]).2
      = Result.ok ⟨[("username", Value.str "devuser")]⟩ :=
  ⟨sched_reversed_valid, rfl, rfl⟩

/-- C2, as stated, fails: whichever way `{a: {x: 1, y: 2}}` and `{a: {y: 3}}`
are folded, the merged tree does not hold at `a` a mapping with both
`x = 1` and `y = 3`. -/
theorem nested_merge_not_recursive :
    (¬ ∃ m, mapGet (mergeConfigs [lowerSource, higherSource]) (Key.str "a") = some (Value.map m)
        ∧ mapGet m (Key.str "x") = some (Value.int 1)
        ∧ mapGet m (Key.str "y") = some (Value.int 3)) ∧
    (¬ ∃ m, mapGet (mergeConfigs [higherSource, lowerSource]) (Key.str "a") = some (Value.map m)
        ∧ mapGet m (Key.str "x") = some (Value.int 1)
        ∧ mapGet m (Key.str "y") = some (Value.int 3)) := by
  constructor
  · rintro ⟨m, h₁, h₂, -⟩
    have hm : mergeConfigs [lowerSource, higherSource]
        = [(Key.str "a", Value.map [(Key.str "y", Value.int 3)])] := rfl
    rw [hm] at h₁
    simp only [mapGet, if_true, Option.some.injEq, Value.map.injEq] at h₁
    subst h₁
    simp [mapGet] at h₂
  · rintro ⟨m, h₁, -, h₃⟩
    have hm : mergeConfigs [higherSource, lowerSource]
        = [(Key.str "a", Value.map [(Key.str "x", Value.int 1), (Key.str "y", Value.int 2)])] :=
      rfl
    rw [hm] at h₁
    simp only [mapGet, if_true, Option.some.injEq, Value.map.injEq] at h₁
    subst h₁
    simp [mapGet] at h₃

/-- C2, amended: the merge is shallow.  When two sources both hold a mapping
at the same top-level key, the merged tree holds at that key exactly the
mapping of the source that is folded second, whatever the first one held. -/
theorem merge_replaces_whole_mapping (first second : String × List (String × Value))
    (k : String) (m₁ m₂ : List (Key × Value))
    (hwf : (mapKeys second.2).Nodup)
    (_h₁ : mapGet first.2 k = some (Value.map m₁))
    (h₂ : mapGet second.2 k = some (Value.map m₂)) :
    mapGet (mergeConfigs [first, second]) (Key.str k) = some (Value.map m₂) := by
  have h : mergeConfigs [first, second] = mergeLoop (mergeLoop [] first.2) second.2 := rfl
  rw [h, mapGet_mergeLoop _ _ _ hwf, h₂]
  rfl

/-- Witness of C2 amended: folding `{a: {x: 1, y: 2}}` and then `{a: {y: 3}}`
leaves `{y: 3}` at `a`. -/
theorem merge_replaces_whole_mapping_witness :
    mapGet (mergeConfigs [lowerSource, higherSource]) (Key.str "a")
      = some (Value.map [(Key.str "y", Value.int 3)]) :=
  merge_replaces_whole_mapping lowerSource higherSource "a"
    [(Key.str "x", Value.int 1), (Key.str "y", Value.int 2)] [(Key.str "y", Value.int 3)]
    (by simp [mapKeys, higherSource]) rfl rfl

/-- C9: `mergeConfigs` is not deterministic with respect to the order in which
the sources are ranged over: two orders of the same two sources give maps
that differ at `username`. -/
theorem mergeConfigs_depends_on_range_order :
    [baseSource, devSource].Perm [devSource, baseSource] ∧
    mapGet (mergeConfigs [baseSource, devSource]) (Key.str "username")
      = some (Value.str "devuser") ∧
    mapGet (mergeConfigs [devSource, baseSource]) (Key.str "username")
      = some (Value.str "postgres") :=
  ⟨List.Perm.swap _ _ _, rfl, rfl⟩

/-- C10: for sources (Go maps, so without repeated keys) whose top-level key
sets are pairwise disjoint, `mergeConfigs` returns the same map whatever the order in which the sources
are folded (same lookups, same entries), and its entries are exactly the
entries of the sources. -/
theorem mergeConfigs_disjoint_sources
    (maps₁ maps₂ : List (String × List (String × Value)))
    (hperm : maps₁.Perm maps₂)
    (hwf : ∀ src ∈ maps₁, (mapKeys src.2).Nodup)
    (hdisj : maps₁.Pairwise DisjointKeys) :
    (∀ key, mapGet (mergeConfigs maps₁) key = mapGet (mergeConfigs maps₂) key) ∧
    (mergeConfigs maps₁).Perm (mergeConfigs maps₂) ∧
    (∀ key v, (key, v) ∈ mergeConfigs maps₁ ↔
      ∃ src ∈ maps₁, ∃ k, key = Key.str k ∧ (k, v) ∈ src.2) := by
  have hwf₂ : ∀ src ∈ maps₂, (mapKeys src.2).Nodup :=
    fun src h => hwf src (hperm.mem_iff.2 h)
  have hdisj₂ : maps₂.Pairwise DisjointKeys :=
    (hperm.pairwise_iff (fun h => disjointKeys_symm h)).1 hdisj
  have hmem : ∀ e, e ∈ mergeConfigs maps₁ ↔ e ∈ mergeConfigs maps₂ := by
    rintro ⟨key, v⟩
    rw [mem_mergeConfigs maps₁ hwf hdisj, mem_mergeConfigs maps₂ hwf₂ hdisj₂]
    constructor
    · rintro ⟨src, hsrc, h⟩
      exact ⟨src, hperm.mem_iff.1 hsrc, h⟩
    · rintro ⟨src, hsrc, h⟩
      exact ⟨src, hperm.mem_iff.2 hsrc, h⟩
  refine ⟨?_, ?_, mem_mergeConfigs maps₁ hwf hdisj⟩
  · intro key
    by_cases hkey : ∀ k, key ≠ Key.str k
    · unfold mergeConfigs
      rw [mapGet_mergeFrom_other [] maps₁ key hkey, mapGet_mergeFrom_other [] maps₂ key hkey]
    · push_neg at hkey
      obtain ⟨k, rfl⟩ := hkey
      rw [mapGet_mergeConfigs maps₁ k hwf, mapGet_mergeConfigs maps₂ k hwf₂]
      exact winner_perm maps₁ maps₂ k hperm hdisj
  · exact (List.perm_ext_iff_of_nodup
      (List.Nodup.of_map _ (nodup_mergeConfigs maps₁))
      (List.Nodup.of_map _ (nodup_mergeConfigs maps₂))).2 hmem

/-- Witness of C10: `{user: "a"}` and `{port: 5432}` share no key; folded in
either order the merged map holds `port = 5432`. -/
theorem mergeConfigs_disjoint_sources_witness :
    mapGet (mergeConfigs [("a.yml", [("user", Value.str "a")]), ("b.yml", [("port", Value.int 5432)])])
        (Key.str "port")
      = mapGet (mergeConfigs [("b.yml", [("port", Value.int 5432)]), ("a.yml", [("user", Value.str "a")])])
        (Key.str "port") :=
  (mergeConfigs_disjoint_sources
    [("a.yml", [("user", Value.str "a")]), ("b.yml", [("port", Value.int 5432)])]
    [("b.yml", [("port", Value.int 5432)]), ("a.yml", [("user", Value.str "a")])]
    (List.Perm.swap _ _ _)
    (by simp [mapKeys])
    (by simp [DisjointKeys, mapKeys])).1 (Key.str "port")

/-! ## The patterns -/

theorem matchAt_of_isPrefixOf (lit : List Char) (pos : Nat) (rest : List Char)
    (h : lit.isPrefixOf rest = true) : matchAt lit pos rest = some (pos, pos + lit.length) := by
  simp [matchAt, h]

theorem matchAt_of_not_isPrefixOf (lit : List Char) (pos : Nat) (rest : List Char)
    (h : lit.isPrefixOf rest = false) : matchAt lit pos rest = none := by
  simp [matchAt, h]

theorem findFrom_of_isPrefixOf (lit : List Char) (pos : Nat) (s : List Char)
    (h : lit.isPrefixOf s = true) : findFrom lit pos s = some (pos, pos + lit.length) := by
  cases s with
  | nil => simp [findFrom, matchAt_of_isPrefixOf lit pos [] h]
  | cons c cs => simp [findFrom, matchAt_of_isPrefixOf lit pos (c :: cs) h]

theorem findFrom_cons_of_not_isPrefixOf (lit : List Char) (pos : Nat) (c : Char)
    (cs : List Char) (h : lit.isPrefixOf (c :: cs) = false) :
    findFrom lit pos (c :: cs) = findFrom lit (pos + 1) cs := by
  simp [findFrom, matchAt_of_not_isPrefixOf lit pos (c :: cs) h]

theorem ssmPattern_not_isPrefixOf (s : List Char) (h : ':' ∉ s) :
    ssmPattern.isPrefixOf s = false := by
  cases hp : ssmPattern.isPrefixOf s with
  | false => rfl
  | true =>
    have hpre : ssmPattern <+: s := List.isPrefixOf_iff_prefix.1 hp
    have hmem : ':' ∈ ssmPattern := by decide
    exact absurd (hpre.subset hmem) h

theorem findFrom_ssmPattern_none (s : List Char) (pos : Nat) (h : ':' ∉ s) :
    findFrom ssmPattern pos s = none := by
  induction s generalizing pos with
  | nil => simp [findFrom, matchAt_of_not_isPrefixOf _ pos [] (ssmPattern_not_isPrefixOf [] h)]
  | cons c cs ih =>
    rw [findFrom_cons_of_not_isPrefixOf _ _ _ _ (ssmPattern_not_isPrefixOf _ h)]
    exact ih _ (fun hc => h (List.mem_cons_of_mem _ hc))

theorem findStringIndex_ssm_prefixed (s : String) :
    FindStringIndex ssmPattern ("ssm:" ++ s) = some (0, 4) := by
  have h : ssmPattern.isPrefixOf ("ssm:" ++ s).toList = true := by
    rw [List.isPrefixOf_iff_prefix]
    exact ⟨s.toList, rfl⟩
  exact findFrom_of_isPrefixOf ssmPattern 0 _ h

theorem findStringIndex_env_prefixed (s : String) :
    FindStringIndex envPattern ("env:" ++ s) = some (0, 4) := by
  have h : envPattern.isPrefixOf ("env:" ++ s).toList = true := by
    rw [List.isPrefixOf_iff_prefix]
    exact ⟨s.toList, rfl⟩
  exact findFrom_of_isPrefixOf envPattern 0 _ h

theorem findStringIndex_ssm_env_prefixed (s : String) (h : ':' ∉ s.toList) :
    FindStringIndex ssmPattern ("env:" ++ s) = none := by
  have hl : ("env:" ++ s).toList = 'e' :: 'n' :: 'v' :: ':' :: s.toList := rfl
  unfold FindStringIndex
  rw [hl,
    findFrom_cons_of_not_isPrefixOf _ _ _ _ (by simp [ssmPattern, List.isPrefixOf]),
    findFrom_cons_of_not_isPrefixOf _ _ _ _ (by simp [ssmPattern, List.isPrefixOf]),
    findFrom_cons_of_not_isPrefixOf _ _ _ _ (by simp [ssmPattern, List.isPrefixOf]),
    findFrom_cons_of_not_isPrefixOf _ _ _ _ (by simp [ssmPattern, List.isPrefixOf])]
  exact findFrom_ssmPattern_none _ _ h

theorem sliceFrom_prefixed (p s : String) : sliceFrom (p ++ s) p.length = s := by
  unfold sliceFrom
  have h : (p ++ s).toList = p.toList ++ s.toList := rfl
  rw [h]
  have hlen : p.length = p.toList.length := rfl
  rw [hlen, List.drop_left]
  rfl

/-! ## `replacePlaceholders` -/

mutual
/-- Induction over a value and the maps nested in it. -/
theorem value_ind {P : Value → Prop} {Q : List (Key × Value) → Prop}
    (hleaf : ∀ v, (∀ m, v ≠ Value.map m) → P v)
    (hmap : ∀ m, Q m → P (Value.map m))
    (hnil : Q [])
    (hcons : ∀ k v rest, P v → Q rest → Q ((k, v) :: rest)) : ∀ v, P v
  | .map m => hmap m (entries_ind hleaf hmap hnil hcons m)
  | .str _ => hleaf _ (fun _ h => by cases h)
  | .int _ => hleaf _ (fun _ h => by cases h)
  | .bool _ => hleaf _ (fun _ h => by cases h)
  | .null => hleaf _ (fun _ h => by cases h)
  | .seq _ => hleaf _ (fun _ h => by cases h)
  | .strMapPtr _ => hleaf _ (fun _ h => by cases h)
/-- Induction over a map and the maps nested in its values. -/
theorem entries_ind {P : Value → Prop} {Q : List (Key × Value) → Prop}
    (hleaf : ∀ v, (∀ m, v ≠ Value.map m) → P v)
    (hmap : ∀ m, Q m → P (Value.map m))
    (hnil : Q [])
    (hcons : ∀ k v rest, P v → Q rest → Q ((k, v) :: rest)) : ∀ m, Q m
  | [] => hnil
  | (k, v) :: rest =>
    hcons k v rest (value_ind hleaf hmap hnil hcons v) (entries_ind hleaf hmap hnil hcons rest)
end

theorem loadSSMParameter_eq (w : World) (name : String) :
    loadSSMParameter w name = w.getParameter name true := by
  simp only [loadSSMParameter]
  cases w.getParameter name true <;> rfl

theorem replaceValue_ssm_prefixed (w : World) (s : String) :
    replaceValue w (Value.str ("ssm:" ++ s))
      = match w.getParameter s true with
        | .error err => ([Event.ssm s], Result.err err)
        | .ok v => ([Event.ssm s], Result.ok (Value.str v)) := by
  have hs : sliceFrom ("ssm:" ++ s) 4 = s := sliceFrom_prefixed "ssm:" s
  rw [replaceValue, findStringIndex_ssm_prefixed]
  simp only [hs, loadSSMParameter]
  cases w.getParameter s true <;> rfl

theorem replaceValue_env_prefixed (w : World) (s : String) (h : ':' ∉ s.toList) :
    replaceValue w (Value.str ("env:" ++ s))
      = ([Event.env s], Result.ok (Value.str (Getenv w s))) := by
  have hs : sliceFrom ("env:" ++ s) 4 = s := sliceFrom_prefixed "env:" s
  rw [replaceValue, findStringIndex_ssm_env_prefixed s h, findStringIndex_env_prefixed]
  simp only [hs]

theorem replaceLoop_str_key (w : World) (key : String) (value : Value)
    (rest : List (Key × Value)) (mapped : List (String × Value)) :
    replaceLoop w ((Key.str key, value) :: rest) mapped
      = match replaceValue w value with
        | (t, .ok resolved) =>
          (t ++ (replaceLoop w rest (mapSet mapped key resolved)).1,
            (replaceLoop w rest (mapSet mapped key resolved)).2)
        | (t, .err err) => (t, .err err)
        | (t, .panic msg) => (t, .panic msg) := by
  rw [replaceLoop]

theorem alnum_ne_colon (c : Char) (h : c.isAlphanum = true ∨ c = '_') : c ≠ ':' := by
  rintro rfl
  rcases h with h | h
  · exact absurd h (by decide)
  · exact absurd h (by decide)

theorem value_entries_ind {P : Value → Prop} {Q : List (Key × Value) → Prop}
    (hleaf : ∀ v, (∀ m, v ≠ Value.map m) → P v)
    (hmap : ∀ m, Q m → P (Value.map m))
    (hnil : Q [])
    (hcons : ∀ k v rest, P v → Q rest → Q ((k, v) :: rest)) :
    (∀ v, P v) ∧ (∀ m, Q m) :=
  ⟨value_ind hleaf hmap hnil hcons, entries_ind hleaf hmap hnil hcons⟩

/-- The three ways in which a string leaf is handled. -/
theorem replaceValue_str_cases (w : World) (param : String) :
    (∃ index, FindStringIndex ssmPattern param = some index ∧
      ((∃ err, loadSSMParameter w (sliceFrom param index.2) = .error err ∧
          replaceValue w (Value.str param)
            = ([Event.ssm (sliceFrom param index.2)], Result.err err)) ∨
       (∃ v, loadSSMParameter w (sliceFrom param index.2) = .ok v ∧
          replaceValue w (Value.str param)
            = ([Event.ssm (sliceFrom param index.2)], Result.ok (Value.str v))))) ∨
    (FindStringIndex ssmPattern param = none ∧
      ∃ index, FindStringIndex envPattern param = some index ∧
        replaceValue w (Value.str param)
          = ([Event.env (sliceFrom param index.2)],
              Result.ok (Value.str (Getenv w (sliceFrom param index.2))))) ∨
    (FindStringIndex ssmPattern param = none ∧ FindStringIndex envPattern param = none ∧
      replaceValue w (Value.str param) = ([], Result.ok (Value.str param))) := by
  rw [replaceValue]
  cases hssm : FindStringIndex ssmPattern param with
  | some index =>
    left
    refine ⟨index, rfl, ?_⟩
    cases hload : loadSSMParameter w (sliceFrom param index.2) with
    | error err => exact Or.inl ⟨err, rfl, by simp only [hload]⟩
    | ok v => exact Or.inr ⟨v, rfl, by simp only [hload]⟩
  | none =>
    right
    cases henv : FindStringIndex envPattern param with
    | some index => exact Or.inl ⟨rfl, index, rfl, rfl⟩
    | none => exact Or.inr ⟨rfl, rfl, rfl⟩

theorem replaceValue_other (w : World) (v : Value) (hmap : ∀ m, v ≠ Value.map m)
    (hstr : ∀ s, v ≠ Value.str s) :
    replaceValue w v = ([], Result.panic "interface conversion: interface {} is not string") := by
  cases v with
  | map m => exact absurd rfl (hmap m)
  | str s => exact absurd rfl (hstr s)
  | int n => rfl
  | bool b => rfl
  | null => rfl
  | seq xs => rfl
  | strMapPtr m => rfl

theorem replaceLoop_other_key (w : World) (k : Key) (value : Value)
    (rest : List (Key × Value)) (mapped : List (String × Value)) (hk : ∀ s, k ≠ Key.str s) :
    replaceLoop w ((k, value) :: rest) mapped
      = ([], Result.panic "interface conversion: interface {} is not string") := by
  cases k with
  | str s => exact absurd rfl (hk s)
  | int n => rfl
  | bool b => rfl
  | null => rfl

/-- A failed lookup that was made decides the outcome of the value and of the
loop in which it was made. -/
theorem replace_failed_lookup (w : World) (name : String) (e : Error)
    (hfail : loadSSMParameter w name = .error e) :
    (∀ v, Event.ssm name ∈ (replaceValue w v).1 → (replaceValue w v).2 = Result.err e) ∧
    (∀ m mapped, Event.ssm name ∈ (replaceLoop w m mapped).1 →
      (replaceLoop w m mapped).2 = Result.err e) := by
  apply value_entries_ind
  · -- leaves
    intro v hv hmem
    by_cases hstr : ∃ param, v = Value.str param
    · obtain ⟨param, rfl⟩ := hstr
      rcases replaceValue_str_cases w param with
        ⟨index, -, ⟨err, hload, heq⟩ | ⟨val, hload, heq⟩⟩ | ⟨-, index, -, heq⟩ | ⟨-, -, heq⟩
      · rw [heq] at hmem ⊢
        simp only [List.mem_singleton, Event.ssm.injEq] at hmem
        rw [← hmem, hfail] at hload
        cases hload
        rfl
      · rw [heq] at hmem
        simp only [List.mem_singleton, Event.ssm.injEq] at hmem
        rw [← hmem, hfail] at hload
        cases hload
      · rw [heq] at hmem
        simp at hmem
      · rw [heq] at hmem
        simp at hmem
    · push_neg at hstr
      rw [replaceValue_other w v hv hstr] at hmem
      simp at hmem
  · -- nested maps
    intro m ih hmem
    have ih' := ih []
    rw [replaceValue] at hmem ⊢
    rcases hr : replaceLoop w m [] with ⟨t, r⟩
    rw [hr] at hmem ih'
    cases r with
    | ok inner => cases ih' hmem
    | err e' =>
      have h := ih' hmem
      simp only [Result.err.injEq] at h
      rw [h]
    | panic msg => cases ih' hmem
  · intro mapped hmem
    simp [replaceLoop] at hmem
  · intro k v rest ihv ihrest mapped hmem
    by_cases hk : ∃ key, k = Key.str key
    · obtain ⟨key, rfl⟩ := hk
      rw [replaceLoop_str_key] at hmem ⊢
      rcases hr : replaceValue w v with ⟨t, r⟩
      rw [hr] at hmem ihv
      cases r with
      | ok resolved =>
        simp only [List.mem_append] at hmem
        rcases hmem with h | h
        · cases ihv h
        · exact ihrest _ h
      | err e' =>
        have h := ihv hmem
        simp only [Result.err.injEq] at h
        rw [h]
      | panic msg => cases ihv hmem
    · push_neg at hk
      rw [replaceLoop_other_key w k v rest mapped hk] at hmem
      simp at hmem

/-- A tree with a leaf `"ssm:" ++ name`, at any depth, whose lookup fails is
never resolved: neither the value nor any loop over it ends with a tree. -/
theorem replace_not_ok_of_failing_leaf (w : World) (name : String) (e : Error)
    (hfail : loadSSMParameter w name = .error e) :
    (∀ v, hasLeaf ("ssm:" ++ name) v = true → ∀ r, (replaceValue w v).2 ≠ Result.ok r) ∧
    (∀ m, ∀ mapped, hasLeafIn ("ssm:" ++ name) m = true →
      ∀ r, (replaceLoop w m mapped).2 ≠ Result.ok r) := by
  have hget : w.getParameter name true = .error e := by
    rw [← loadSSMParameter_eq]
    exact hfail
  apply value_entries_ind
  · intro v hv hleaf r
    cases v with
    | map m => exact absurd rfl (hv m)
    | str s =>
      have hs : s = "ssm:" ++ name := by simpa [hasLeaf] using hleaf
      rw [hs, replaceValue_ssm_prefixed, hget]
      simp
    | int n => simp [hasLeaf] at hleaf
    | bool b => simp [hasLeaf] at hleaf
    | null => simp [hasLeaf] at hleaf
    | seq xs => simp [hasLeaf] at hleaf
    | strMapPtr m => simp [hasLeaf] at hleaf
  · intro m ih hleaf r
    have ih' := ih [] (by simpa [hasLeaf] using hleaf)
    rw [replaceValue]
    generalize replaceLoop w m [] = res at ih'
    obtain ⟨t, r'⟩ := res
    cases r' with
    | ok inner => exact absurd rfl (ih' inner)
    | err e' => simp
    | panic msg => simp
  · intro mapped hleaf
    simp [hasLeafIn] at hleaf
  · intro k v rest ihv ihrest mapped hleaf r
    by_cases hk : ∃ key, k = Key.str key
    · obtain ⟨key, rfl⟩ := hk
      rw [replaceLoop_str_key]
      generalize hres : replaceValue w v = res at ihv
      obtain ⟨t, r'⟩ := res
      cases r' with
      | ok resolved =>
        have hrest : hasLeafIn ("ssm:" ++ name) rest = true := by
          simp only [hasLeafIn, Bool.or_eq_true] at hleaf
          rcases hleaf with h | h
          · exact absurd rfl (ihv h resolved)
          · exact h
        exact ihrest _ hrest r
      | err e' => simp
      | panic msg => simp
    · push_neg at hk
      rw [replaceLoop_other_key w k v rest mapped hk]
      simp

/-- On a tree of strings and string-keyed maps no type assertion fails: the
outcome is a resolved value, or the error of a lookup that was made. -/
theorem replace_stringTree (w : World) :
    (∀ v, stringTree v = true →
      (∃ r, (replaceValue w v).2 = Result.ok r) ∨
      (∃ name e, Event.ssm name ∈ (replaceValue w v).1 ∧
        loadSSMParameter w name = .error e ∧ (replaceValue w v).2 = Result.err e)) ∧
    (∀ m, ∀ mapped, stringTreeIn m = true →
      (∃ r, (replaceLoop w m mapped).2 = Result.ok r) ∨
      (∃ name e, Event.ssm name ∈ (replaceLoop w m mapped).1 ∧
        loadSSMParameter w name = .error e ∧ (replaceLoop w m mapped).2 = Result.err e)) := by
  apply value_entries_ind
  · intro v hv htree
    cases v with
    | map m => exact absurd rfl (hv m)
    | str param =>
      rcases replaceValue_str_cases w param with
        ⟨index, -, ⟨err, hload, heq⟩ | ⟨val, -, heq⟩⟩ | ⟨-, index, -, heq⟩ | ⟨-, -, heq⟩
      · right
        exact ⟨_, err, by rw [heq]; exact List.mem_singleton.2 rfl, hload, by rw [heq]⟩
      · left
        exact ⟨_, by rw [heq]⟩
      · left
        exact ⟨_, by rw [heq]⟩
      · left
        exact ⟨_, by rw [heq]⟩
    | int n => simp [stringTree] at htree
    | bool b => simp [stringTree] at htree
    | null => simp [stringTree] at htree
    | seq xs => simp [stringTree] at htree
    | strMapPtr m => simp [stringTree] at htree
  · intro m ih htree
    have ih' := ih [] (by simpa [stringTree] using htree)
    rw [replaceValue]
    generalize replaceLoop w m [] = res at ih'
    obtain ⟨t, r'⟩ := res
    cases r' with
    | ok inner => exact Or.inl ⟨_, rfl⟩
    | err e' =>
      rcases ih' with ⟨r, hr⟩ | ⟨name, e, hmem, hload, hr⟩
      · cases hr
      · exact Or.inr ⟨name, e, hmem, hload, by simpa using hr⟩
    | panic msg =>
      rcases ih' with ⟨r, hr⟩ | ⟨name, e, -, -, hr⟩
      · cases hr
      · cases hr
  · intro mapped _
    exact Or.inl ⟨mapped, rfl⟩
  · intro k v rest ihv ihrest mapped htree
    cases k with
    | str key =>
      have hboth : stringTree v = true ∧ stringTreeIn rest = true := by
        simpa [stringTreeIn] using htree
      have ihv' := ihv hboth.1
      rw [replaceLoop_str_key]
      generalize replaceValue w v = res at ihv'
      obtain ⟨t, r'⟩ := res
      cases r' with
      | ok resolved =>
        rcases ihrest (mapSet mapped key resolved) hboth.2 with
          ⟨r, hr⟩ | ⟨name, e, hmem, hload, hr⟩
        · exact Or.inl ⟨r, hr⟩
        · exact Or.inr ⟨name, e, List.mem_append_right _ hmem, hload, hr⟩
      | err e' =>
        rcases ihv' with ⟨r, hr⟩ | ⟨name, e, hmem, hload, hr⟩
        · cases hr
        · exact Or.inr ⟨name, e, hmem, hload, by simpa using hr⟩
      | panic msg =>
        rcases ihv' with ⟨r, hr⟩ | ⟨name, e, -, -, hr⟩
        · cases hr
        · cases hr
    | int n => simp [stringTreeIn] at htree
    | bool b => simp [stringTreeIn] at htree
    | null => simp [stringTreeIn] at htree

/-! ## `Build` -/

theorem readLoop_trace (w : World) (dirname : String) (files : List String)
    (blobs : List (String × Bytes)) :
    ∀ ev ∈ (readLoop w dirname files blobs).1, ∃ path, ev = Event.read path := by
  induction files generalizing blobs with
  | nil => simp [readLoop]
  | cons filename rest ih =>
    intro ev hev
    rw [readLoop] at hev
    cases hget : w.getContents (dirname ++ "/" ++ filename) with
    | error err =>
      simp only [hget, List.mem_singleton] at hev
      exact ⟨_, hev⟩
    | ok file =>
      simp only [hget, List.mem_cons] at hev
      rcases hev with h | h
      · exact ⟨_, h⟩
      · exact ih _ ev h

theorem parseLoop_trace (w : World) (blobs : List (String × Bytes)) (keys : List String)
    (configs : List (String × List (String × Value))) :
    ∀ ev ∈ (parseLoop w blobs keys configs).1, ∃ key, ev = Event.parse key := by
  induction keys generalizing configs with
  | nil => simp [parseLoop]
  | cons key rest ih =>
    intro ev hev
    rw [parseLoop] at hev
    cases hdec : w.unmarshal ((mapGet blobs key).getD []) with
    | error err =>
      simp only [hdec, List.mem_singleton] at hev
      exact ⟨_, hev⟩
    | ok contents =>
      simp only [hdec, List.mem_cons] at hev
      rcases hev with h | h
      · exact ⟨_, h⟩
      · exact ih _ ev h

theorem ssm_not_mem_readFiles (w : World) (dirname : String) (files : List String)
    (name : String) : Event.ssm name ∉ (readFiles w dirname files).1 := by
  intro h
  obtain ⟨path, hp⟩ := readLoop_trace w dirname files [] _ h
  cases hp

theorem ssm_not_mem_parseBlobs (w : World) (s : Sched) (blobs : List (String × Bytes))
    (name : String) : Event.ssm name ∉ (parseBlobs w s blobs).1 := by
  intro h
  obtain ⟨key, hk⟩ := parseLoop_trace w blobs _ [] _ h
  cases hk

theorem build_failed_lookup (w : World) (s : Sched) (dirname : String)
    (configFiles : List String) (name : String) (e : Error)
    (hfail : loadSSMParameter w name = .error e)
    (hmem : Event.ssm name ∈ (Build w s dirname configFiles).1) :
    (Build w s dirname configFiles).2 = Result.err e := by
  have h₁ := ssm_not_mem_readFiles w dirname configFiles name
  unfold Build at hmem ⊢
  generalize readFiles w dirname configFiles = rd at h₁ hmem ⊢
  obtain ⟨t₁, r₁⟩ := rd
  cases r₁ with
  | err err => exact absurd hmem h₁
  | panic msg => exact absurd hmem h₁
  | ok blobs =>
    have h₂ := ssm_not_mem_parseBlobs w s blobs name
    simp only at hmem ⊢
    generalize parseBlobs w s blobs = pd at h₂ hmem ⊢
    obtain ⟨t₂, r₂⟩ := pd
    cases r₂ with
    | err err =>
      simp only [List.mem_append] at hmem
      rcases hmem with h | h
      · exact absurd h h₁
      · exact absurd h h₂
    | panic msg =>
      simp only [List.mem_append] at hmem
      rcases hmem with h | h
      · exact absurd h h₁
      · exact absurd h h₂
    | ok configs =>
      simp only at hmem ⊢
      have h₃ := (replace_failed_lookup w name e hfail).2
        (s.rangeMerged (mergeConfigs (s.rangeConfigs configs))) []
      unfold replacePlaceholders at hmem ⊢
      generalize replaceLoop w (s.rangeMerged (mergeConfigs (s.rangeConfigs configs))) [] = rp
        at h₃ hmem ⊢
      obtain ⟨t₃, r₃⟩ := rp
      have hin : Event.ssm name ∈ t₃ := by
        cases r₃ <;>
        · simp only [List.mem_append] at hmem
          rcases hmem with (h | h) | h
          · exact absurd h h₁
          · exact absurd h h₂
          · exact h
      have h := h₃ hin
      simp only at h
      subst h
      rfl

/-! ## Claims on the resolution of placeholders -/

/-- C3: a tree without any leaf that begins with `ssm:` or `env:` is not always
returned unchanged.  The leaf `my-ssm:foo` begins with neither prefix, yet the
secret store is asked for `foo` and the leaf is replaced by the answer; and
for the leaf `see ssm:bar`, unknown to the store, the call fails. -/
theorem unprefixed_leaf_reaches_secret_store :
    ssmPattern.isPrefixOf "my-ssm:foo".toList = false ∧
    envPattern.isPrefixOf "my-ssm:foo".toList = false ∧
    replacePlaceholders sampleWorld [(Key.str "note", Value.str "my-ssm:foo")]
      = ([Event.ssm "foo"], Result.ok [("note", Value.str "secret")]) ∧
    ssmPattern.isPrefixOf "see ssm:bar".toList = false ∧
    envPattern.isPrefixOf "see ssm:bar".toList = false ∧
    replacePlaceholders sampleWorld [(Key.str "note", Value.str "see ssm:bar")]
      = ([Event.ssm "bar"], Result.err "ParameterNotFound") :=
  ⟨rfl, rfl, rfl, rfl, rfl, rfl⟩

/-- C4: a leaf that is neither a string nor a mapping does not pass through:
on an integer, a boolean, a null or a sequence the assertion of the leaf to a
string fails and `replacePlaceholders` panics, returning nothing. -/
theorem non_string_leaf_panics :
    replacePlaceholders sampleWorld [(Key.str "port", Value.int 5432)]
      = ([], Result.panic "interface conversion: interface {} is not string") ∧
    replacePlaceholders sampleWorld [(Key.str "debug", Value.bool true)]
      = ([], Result.panic "interface conversion: interface {} is not string") ∧
    replacePlaceholders sampleWorld [(Key.str "proxy", Value.null)]
      = ([], Result.panic "interface conversion: interface {} is not string") ∧
    replacePlaceholders sampleWorld
        [(Key.str "hosts", Value.seq [Value.str "a", Value.str "b"])]
      = ([], Result.panic "interface conversion: interface {} is not string") :=
  ⟨rfl, rfl, rfl, rfl⟩

/-- C5: let the lookup of `name` in the secret store fail with `e`.  When
`replacePlaceholders` makes that lookup, for a leaf at any nesting depth, it
returns `e` and no tree; a tree that holds the leaf `"ssm:" ++ name` at any
depth is never resolved, not even partially, and if the tree is made of
strings and string-keyed maps the outcome is the error of a lookup that the
store failed; a `Build` that makes the lookup returns `e` and no `Gofigure`
value. -/
theorem failed_lookup_aborts (w : World) (name : String) (e : Error)
    (hfail : loadSSMParameter w name = .error e) :
    (∀ config, Event.ssm name ∈ (replacePlaceholders w config).1 →
      (replacePlaceholders w config).2 = Result.err e) ∧
    (∀ config, hasLeafIn ("ssm:" ++ name) config = true →
      ∀ tree, (replacePlaceholders w config).2 ≠ Result.ok tree) ∧
    (∀ config, stringTreeIn config = true → hasLeafIn ("ssm:" ++ name) config = true →
      ∃ failed err, Event.ssm failed ∈ (replacePlaceholders w config).1 ∧
        loadSSMParameter w failed = .error err ∧
        (replacePlaceholders w config).2 = Result.err err) ∧
    (∀ s dirname configFiles, Event.ssm name ∈ (Build w s dirname configFiles).1 →
      (Build w s dirname configFiles).2 = Result.err e) := by
  refine ⟨fun config h => (replace_failed_lookup w name e hfail).2 config [] h,
    fun config h tree => (replace_not_ok_of_failing_leaf w name e hfail).2 config [] h tree,
    ?_,
    fun s dirname configFiles h => build_failed_lookup w s dirname configFiles name e hfail h⟩
  intro config htree hleaf
  rcases (replace_stringTree w).2 config [] htree with ⟨r, hr⟩ | h
  · exact absurd hr ((replace_not_ok_of_failing_leaf w name e hfail).2 config [] hleaf r)
  · exact h

/-- Witness of C5: the password nested under `db` is unknown to the secret
store of `sampleWorld`; resolving the tree, and building from
`config.prod.yml`, both end with the error of the store. -/
theorem failed_lookup_aborts_witness :
    (replacePlaceholders sampleWorld
        [(Key.str "db", Value.map [(Key.str "password", Value.str "ssm:/prod/db_password")])]).2
      = Result.err "ParameterNotFound" ∧
    (Build sampleWorld Sched.insertion "samples" ["config.yml", "config.prod.yml"]).2
      = Result.err "ParameterNotFound" :=
  ⟨(failed_lookup_aborts sampleWorld "/prod/db_password" "ParameterNotFound" rfl).1
      [(Key.str "db", Value.map [(Key.str "password", Value.str "ssm:/prod/db_password")])]
      (by decide),
   (failed_lookup_aborts sampleWorld "/prod/db_password" "ParameterNotFound" rfl).2.2.2
      Sched.insertion "samples" ["config.yml", "config.prod.yml"] (by decide)⟩

/-- C6: for a variable name `N` made of letters, digits and underscores, the
leaf `"env:" ++ N` is replaced by the value of `N` in the environment when `N`
is set and by the empty string when it is not; only the environment is
consulted, with `N`, and no error is reported.  This holds wherever the leaf
stands in a loop, and in particular for a map holding just that leaf. -/
theorem env_leaf_resolved (w : World) (key N : String) (rest : List (Key × Value))
    (mapped : List (String × Value))
    (hN : ∀ c ∈ N.toList, c.isAlphanum = true ∨ c = '_') :
    replaceLoop w ((Key.str key, Value.str ("env:" ++ N)) :: rest) mapped
      = (Event.env N ::
          (replaceLoop w rest (mapSet mapped key
            (Value.str (match w.environ N with | some v => v | none => "")))).1,
         (replaceLoop w rest (mapSet mapped key
            (Value.str (match w.environ N with | some v => v | none => "")))).2) ∧
    replacePlaceholders w [(Key.str key, Value.str ("env:" ++ N))]
      = ([Event.env N],
          Result.ok [(key, Value.str (match w.environ N with | some v => v | none => ""))]) := by
  have hcolon : ':' ∉ N.toList := fun h => alnum_ne_colon _ (hN _ h) rfl
  have hget : Getenv w N = (match w.environ N with | some v => v | none => "") := by
    unfold Getenv
    cases w.environ N <;> rfl
  have hloop : ∀ rest mapped,
      replaceLoop w ((Key.str key, Value.str ("env:" ++ N)) :: rest) mapped
        = (Event.env N ::
            (replaceLoop w rest (mapSet mapped key
              (Value.str (match w.environ N with | some v => v | none => "")))).1,
          (replaceLoop w rest (mapSet mapped key
              (Value.str (match w.environ N with | some v => v | none => "")))).2) := by
    intro rest mapped
    rw [replaceLoop_str_key, replaceValue_env_prefixed w N hcolon, hget]
    rfl
  refine ⟨hloop rest mapped, ?_⟩
  unfold replacePlaceholders
  rw [hloop]
  rfl

/-- Witness of C6: in `sampleWorld` the variable `MY_VAR` is `hello` and
`UNSET_VAR` is not set. -/
theorem env_leaf_resolved_witness :
    replacePlaceholders sampleWorld [(Key.str "greeting", Value.str "env:MY_VAR")]
      = ([Event.env "MY_VAR"], Result.ok [("greeting", Value.str "hello")]) ∧
    replacePlaceholders sampleWorld [(Key.str "greeting", Value.str "env:UNSET_VAR")]
      = ([Event.env "UNSET_VAR"], Result.ok [("greeting", Value.str "")]) :=
  ⟨(env_leaf_resolved sampleWorld "greeting" "MY_VAR" [] [] (by decide)).2,
   (env_leaf_resolved sampleWorld "greeting" "UNSET_VAR" [] [] (by decide)).2⟩

/-- C7: for every string `s`, the leaf `"ssm:" ++ s` is resolved by one call of
the secret store with exactly `s` as the parameter name (decryption
requested); when the call succeeds the leaf is replaced by the returned value,
and when it fails the error is returned.  This holds wherever the leaf stands
in a loop, and in particular for a map holding just that leaf. -/
theorem ssm_leaf_resolved (w : World) (key s : String) (rest : List (Key × Value))
    (mapped : List (String × Value)) :
    replaceLoop w ((Key.str key, Value.str ("ssm:" ++ s)) :: rest) mapped
      = (match w.getParameter s true with
        | .error err => ([Event.ssm s], Result.err err)
        | .ok v =>
          (Event.ssm s :: (replaceLoop w rest (mapSet mapped key (Value.str v))).1,
            (replaceLoop w rest (mapSet mapped key (Value.str v))).2)) ∧
    replacePlaceholders w [(Key.str key, Value.str ("ssm:" ++ s))]
      = (match w.getParameter s true with
        | .error err => ([Event.ssm s], Result.err err)
        | .ok v => ([Event.ssm s], Result.ok [(key, Value.str v)])) := by
  have hloop : ∀ rest mapped,
      replaceLoop w ((Key.str key, Value.str ("ssm:" ++ s)) :: rest) mapped
        = (match w.getParameter s true with
          | .error err => ([Event.ssm s], Result.err err)
          | .ok v =>
            (Event.ssm s :: (replaceLoop w rest (mapSet mapped key (Value.str v))).1,
              (replaceLoop w rest (mapSet mapped key (Value.str v))).2)) := by
    intro rest mapped
    rw [replaceLoop_str_key, replaceValue_ssm_prefixed]
    cases w.getParameter s true <;> rfl
  refine ⟨hloop rest mapped, ?_⟩
  unfold replacePlaceholders
  rw [hloop]
  cases w.getParameter s true <;> rfl

/-- C8: a leaf that begins with `env:` is not always resolved through the
environment: for `env:ssm:foo` the secret store is asked for `foo`, the
environment is never consulted, and the leaf becomes the secret. -/
theorem env_prefixed_leaf_reaches_secret_store :
    envPattern.isPrefixOf "env:ssm:foo".toList = true ∧
    replacePlaceholders sampleWorld [(Key.str "k", Value.str "env:ssm:foo")]
      = ([Event.ssm "foo"], Result.ok [("k", Value.str "secret")]) :=
  ⟨rfl, rfl⟩

/-! ## Whole-value merge -/

theorem mem_mapSet {κ ν : Type} [DecidableEq κ] (m : List (κ × ν)) (k : κ) (v : ν)
    (e : κ × ν) (h : e ∈ mapSet m k v) : e = (k, v) ∨ e ∈ m := by
  induction m with
  | nil =>
    left
    simpa [mapSet] using h
  | cons e0 rest ih =>
    obtain ⟨k0, v0⟩ := e0
    by_cases h0 : k0 = k
    · simp only [mapSet, h0, if_true, List.mem_cons] at h
      rcases h with h | h
      · exact Or.inl h
      · exact Or.inr (List.mem_cons_of_mem _ h)
    · simp only [mapSet, h0, if_false, List.mem_cons] at h
      rcases h with h | h
      · exact Or.inr (h ▸ List.mem_cons_self _ _)
      · rcases ih h with h1 | h1
        · exact Or.inl h1
        · exact Or.inr (List.mem_cons_of_mem _ h1)

theorem mem_mergeLoop (config : List (Key × Value)) (src : List (String × Value))
    (e : Key × Value) (h : e ∈ mergeLoop config src) :
    e ∈ config ∨ ∃ k v, (k, v) ∈ src ∧ e = (Key.str k, v) := by
  induction src generalizing config with
  | nil => exact Or.inl h
  | cons e0 rest ih =>
    rw [mergeLoop_cons] at h
    rcases ih _ h with h1 | ⟨k, v, hkv, he⟩
    · rcases mem_mapSet _ _ _ _ h1 with h2 | h2
      · exact Or.inr ⟨e0.1, e0.2, List.mem_cons_self _ _, h2⟩
      · exact Or.inl h2
    · exact Or.inr ⟨k, v, List.mem_cons_of_mem _ hkv, he⟩

theorem mem_mergeFrom (config : List (Key × Value))
    (maps : List (String × List (String × Value))) (e : Key × Value)
    (h : e ∈ mergeFrom config maps) :
    e ∈ config ∨ ∃ src ∈ maps, ∃ k v, (k, v) ∈ src.2 ∧ e = (Key.str k, v) := by
  induction maps generalizing config with
  | nil => exact Or.inl h
  | cons src rest ih =>
    rw [mergeFrom_cons] at h
    rcases ih _ h with h1 | ⟨s, hs, k, v, hkv, he⟩
    · rcases mem_mergeLoop _ _ _ h1 with h2 | ⟨k, v, hkv, he⟩
      · exact Or.inl h2
      · exact Or.inr ⟨src, List.mem_cons_self _ _, k, v, hkv, he⟩
    · exact Or.inr ⟨s, List.mem_cons_of_mem _ hs, k, v, hkv, he⟩

theorem mem_mapKeys_mergeLoop (config : List (Key × Value)) (src : List (String × Value))
    (key : Key) :
    key ∈ mapKeys (mergeLoop config src) ↔
      key ∈ mapKeys config ∨ ∃ k, k ∈ mapKeys src ∧ key = Key.str k := by
  induction src generalizing config with
  | nil => simp [mergeLoop, mapKeys]
  | cons e0 rest ih =>
    rw [mergeLoop_cons, ih, mem_mapKeys_mapSet]
    constructor
    · rintro ((h | h) | ⟨k, hk, he⟩)
      · exact Or.inr ⟨e0.1, by simp [mapKeys], h⟩
      · exact Or.inl h
      · exact Or.inr ⟨k, by
          simp only [mapKeys, List.map_cons, List.mem_cons]
          exact Or.inr hk, he⟩
    · rintro (h | ⟨k, hk, he⟩)
      · exact Or.inl (Or.inr h)
      · simp only [mapKeys, List.map_cons, List.mem_cons] at hk
        rcases hk with hk | hk
        · exact Or.inl (Or.inl (by rw [he, hk]))
        · exact Or.inr ⟨k, hk, he⟩

theorem mem_mapKeys_mergeFrom (config : List (Key × Value))
    (maps : List (String × List (String × Value))) (key : Key) :
    key ∈ mapKeys (mergeFrom config maps) ↔
      key ∈ mapKeys config ∨ ∃ src ∈ maps, ∃ k, k ∈ mapKeys src.2 ∧ key = Key.str k := by
  induction maps generalizing config with
  | nil => simp [mergeFrom]
  | cons src rest ih =>
    rw [mergeFrom_cons, ih, mem_mapKeys_mergeLoop]
    constructor
    · rintro ((h | ⟨k, hk, he⟩) | ⟨s, hs, k, hk, he⟩)
      · exact Or.inl h
      · exact Or.inr ⟨src, List.mem_cons_self _ _, k, hk, he⟩
      · exact Or.inr ⟨s, List.mem_cons_of_mem _ hs, k, hk, he⟩
    · rintro (h | ⟨s, hs, k, hk, he⟩)
      · exact Or.inl (Or.inl h)
      · rcases List.mem_cons.1 hs with h1 | h1
        · subst h1
          exact Or.inl (Or.inr ⟨k, hk, he⟩)
        · exact Or.inr ⟨s, h1, k, hk, he⟩

/-- C16: `mergeConfigs` is a shallow, whole-value merge.  For every collection
of sources, listed in whatever order they are ranged over, the keys of the
result are exactly the top-level keys of the sources, no key occurs twice, and
every entry of the result is, key and complete value, an entry of one single
source: what is found at a key is never put together from two sources. -/
theorem mergeConfigs_whole_values (maps : List (String × List (String × Value))) :
    (∀ key, key ∈ mapKeys (mergeConfigs maps) ↔
      ∃ src ∈ maps, ∃ k, k ∈ mapKeys src.2 ∧ key = Key.str k) ∧
    (mapKeys (mergeConfigs maps)).Nodup ∧
    (∀ key v, (key, v) ∈ mergeConfigs maps →
      ∃ src ∈ maps, ∃ k, key = Key.str k ∧ (k, v) ∈ src.2) ∧
    (∀ key v, mapGet (mergeConfigs maps) key = some v →
      ∃ src ∈ maps, ∃ k, key = Key.str k ∧ (k, v) ∈ src.2) := by
  have hentries : ∀ key v, (key, v) ∈ mergeConfigs maps →
      ∃ src ∈ maps, ∃ k, key = Key.str k ∧ (k, v) ∈ src.2 := by
    intro key v h
    rcases mem_mergeFrom [] maps (key, v) h with h1 | ⟨src, hs, k, v', hkv, he⟩
    · simp at h1
    · cases he
      exact ⟨src, hs, k, rfl, hkv⟩
  refine ⟨?_, nodup_mergeConfigs maps, hentries,
    fun key v h => hentries key v (mem_of_mapGet _ _ _ h)⟩
  intro key
  unfold mergeConfigs
  rw [mem_mapKeys_mergeFrom]
  simp [mapKeys]

/-! ## Trees of strings -/

/-- C17: on every tree in which every key is a string and every leaf is a string
or a nested map, `replacePlaceholders` returns (the function is total), no type
assertion fails, and the outcome is either a resolved tree or the error of a
secret-store lookup that was made and failed. -/
theorem string_tree_never_panics (w : World) (config : List (Key × Value))
    (htree : stringTreeIn config = true) :
    (∀ msg, (replacePlaceholders w config).2 ≠ Result.panic msg) ∧
    ((∃ tree, (replacePlaceholders w config).2 = Result.ok tree) ∨
     (∃ name e, Event.ssm name ∈ (replacePlaceholders w config).1 ∧
        loadSSMParameter w name = .error e ∧
        (replacePlaceholders w config).2 = Result.err e)) := by
  have h := (replace_stringTree w).2 config [] htree
  refine ⟨?_, h⟩
  intro msg hp
  unfold replacePlaceholders at hp
  rcases h with ⟨tree, ht⟩ | ⟨name, e, -, -, he⟩
  · rw [ht] at hp
    cases hp
  · rw [he] at hp
    cases hp

/-- Witness of C17: a two-level tree of strings does not panic in
`sampleWorld`. -/
theorem string_tree_never_panics_witness :
    (replacePlaceholders sampleWorld
        [(Key.str "app", Value.map [(Key.str "greeting", Value.str "env:MY_VAR")]),
         (Key.str "name", Value.str "gofigure")]).2
      ≠ Result.panic "interface conversion: interface {} is not string" :=
  (string_tree_never_panics sampleWorld
    [(Key.str "app", Value.map [(Key.str "greeting", Value.str "env:MY_VAR")]),
     (Key.str "name", Value.str "gofigure")] rfl).1 _

/-! ## Reading the files -/

theorem readLoop_first_unreadable (w : World) (dirname : String) (pre : List String)
    (f : String) (post : List String) (e : Error) (blobs : List (String × Bytes))
    (hpre : ∀ g ∈ pre, ∃ b, w.getContents (dirname ++ "/" ++ g) = .ok b)
    (hf : w.getContents (dirname ++ "/" ++ f) = .error e) :
    readLoop w dirname (pre ++ f :: post) blobs
      = ((pre ++ [f]).map (fun g => Event.read (dirname ++ "/" ++ g)), Result.err e) := by
  induction pre generalizing blobs with
  | nil =>
    simp only [List.nil_append, List.map_cons, List.map_nil]
    rw [readLoop]
    simp only [hf]
  | cons g rest ih =>
    obtain ⟨b, hb⟩ := hpre g (List.mem_cons_self _ _)
    have ih' := ih (mapSet blobs (w.toLower g) b)
      (fun x hx => hpre x (List.mem_cons_of_mem _ hx))
    simp only [List.cons_append, List.map_cons]
    rw [readLoop]
    simp only [hb, ih']

/-- A list with an unreadable file splits at the first one. -/
theorem exists_first_unreadable (w : World) (dirname : String) (configFiles : List String)
    (hfail : ∃ f ∈ configFiles, ∃ e, w.getContents (dirname ++ "/" ++ f) = .error e) :
    ∃ pre f post e, configFiles = pre ++ f :: post ∧
      (∀ g ∈ pre, ∃ b, w.getContents (dirname ++ "/" ++ g) = .ok b) ∧
      w.getContents (dirname ++ "/" ++ f) = .error e := by
  induction configFiles with
  | nil =>
    obtain ⟨f, hf, -⟩ := hfail
    simp at hf
  | cons g rest ih =>
    cases hg : w.getContents (dirname ++ "/" ++ g) with
    | error e => exact ⟨[], g, rest, e, rfl, by simp, hg⟩
    | ok b =>
      have hrest : ∃ f ∈ rest, ∃ e, w.getContents (dirname ++ "/" ++ f) = .error e := by
        obtain ⟨f, hf, e, he⟩ := hfail
        rcases List.mem_cons.1 hf with h | h
        · rw [h, hg] at he
          cases he
        · exact ⟨f, h, e, he⟩
      obtain ⟨pre, f, post, e, hsplit, hpre, hf⟩ := ih hrest
      refine ⟨g :: pre, f, post, e, by rw [hsplit]; rfl, ?_, hf⟩
      intro x hx
      rcases List.mem_cons.1 hx with h | h
      · exact ⟨b, by rw [h]; exact hg⟩
      · exact hpre x h

/-- C12: when `GetContents` fails for a listed file, and `f` is the first such
file (every list with an unreadable file splits this way, see
`exists_first_unreadable`), `Build` returns the error of `f` and no value, and
the calls it made are exactly the reads of the files up to `f`, in listed
order: no later file is read, no document is parsed and no provider is
called. -/
theorem build_stops_at_first_unreadable (w : World) (s : Sched) (dirname : String)
    (pre : List String) (f : String) (post : List String) (e : Error)
    (hpre : ∀ g ∈ pre, ∃ b, w.getContents (dirname ++ "/" ++ g) = .ok b)
    (hf : w.getContents (dirname ++ "/" ++ f) = .error e) :
    Build w s dirname (pre ++ f :: post)
      = ((pre ++ [f]).map (fun g => Event.read (dirname ++ "/" ++ g)), Result.err e) := by
  unfold Build readFiles
  rw [readLoop_first_unreadable w dirname pre f post e [] hpre hf]

/-- Witness of C12: `missing.yml` is not in the directory of `sampleWorld`; the
file listed after it is not read. -/
theorem build_stops_at_first_unreadable_witness :
    Build sampleWorld Sched.insertion "samples"
        (["config.yml"] ++ "missing.yml" :: ["config.dev.yml"])
      = ([Event.read "samples/config.yml", Event.read "samples/missing.yml"],
          Result.err "open: no such file or directory") :=
  build_stops_at_first_unreadable sampleWorld Sched.insertion "samples"
    ["config.yml"] "missing.yml" ["config.dev.yml"] "open: no such file or directory"
    (by
      intro g hg
      rw [List.mem_singleton.1 hg]
      exact ⟨[1], rfl⟩)
    rfl

theorem storedBlobs_cons (w : World) (dirname : String) (f : String) (rest : List String)
    (blobs : List (String × Bytes)) :
    storedBlobs w dirname (f :: rest) blobs
      = storedBlobs w dirname rest (mapSet blobs (w.toLower f) (contentOf w dirname f)) := rfl

theorem storedBlobs_append (w : World) (dirname : String) (pre post : List String)
    (blobs : List (String × Bytes)) :
    storedBlobs w dirname (pre ++ post) blobs
      = storedBlobs w dirname post (storedBlobs w dirname pre blobs) := by
  unfold storedBlobs
  rw [List.foldl_append]

theorem readLoop_all_read (w : World) (dirname : String) (configFiles : List String)
    (blobs : List (String × Bytes))
    (hall : ∀ f ∈ configFiles, ∃ b, w.getContents (dirname ++ "/" ++ f) = .ok b) :
    readLoop w dirname configFiles blobs
      = (configFiles.map (fun f => Event.read (dirname ++ "/" ++ f)),
          Result.ok (storedBlobs w dirname configFiles blobs)) := by
  induction configFiles generalizing blobs with
  | nil => rfl
  | cons f rest ih =>
    obtain ⟨b, hb⟩ := hall f (List.mem_cons_self _ _)
    have hc : contentOf w dirname f = b := by
      unfold contentOf
      rw [hb]
    rw [readLoop, storedBlobs_cons, hc]
    simp only [hb, List.map_cons]
    rw [ih _ (fun x hx => hall x (List.mem_cons_of_mem _ hx))]

theorem nodup_storedBlobs (w : World) (dirname : String) (configFiles : List String)
    (blobs : List (String × Bytes)) (h : (mapKeys blobs).Nodup) :
    (mapKeys (storedBlobs w dirname configFiles blobs)).Nodup := by
  induction configFiles generalizing blobs with
  | nil => exact h
  | cons f rest ih =>
    rw [storedBlobs_cons]
    exact ih _ (nodup_mapKeys_mapSet blobs _ _ h)

theorem mem_mapKeys_storedBlobs (w : World) (dirname : String) (configFiles : List String)
    (blobs : List (String × Bytes)) (key : String) :
    key ∈ mapKeys (storedBlobs w dirname configFiles blobs) ↔
      key ∈ mapKeys blobs ∨ ∃ f ∈ configFiles, w.toLower f = key := by
  induction configFiles generalizing blobs with
  | nil => simp [storedBlobs]
  | cons f rest ih =>
    rw [storedBlobs_cons, ih, mem_mapKeys_mapSet]
    constructor
    · rintro ((h | h) | ⟨g, hg, hk⟩)
      · exact Or.inr ⟨f, List.mem_cons_self _ _, h.symm⟩
      · exact Or.inl h
      · exact Or.inr ⟨g, List.mem_cons_of_mem _ hg, hk⟩
    · rintro (h | ⟨g, hg, hk⟩)
      · exact Or.inl (Or.inr h)
      · rcases List.mem_cons.1 hg with h1 | h1
        · subst h1
          exact Or.inl (Or.inl hk.symm)
        · exact Or.inr ⟨g, h1, hk⟩

theorem mapGet_storedBlobs_of_not_listed (w : World) (dirname : String)
    (configFiles : List String) (blobs : List (String × Bytes)) (key : String)
    (h : ∀ g ∈ configFiles, w.toLower g ≠ key) :
    mapGet (storedBlobs w dirname configFiles blobs) key = mapGet blobs key := by
  induction configFiles generalizing blobs with
  | nil => rfl
  | cons f rest ih =>
    rw [storedBlobs_cons, ih _ (fun g hg => h g (List.mem_cons_of_mem _ hg)), mapGet_mapSet]
    simp [h f (List.mem_cons_self _ _)]

theorem mapGet_storedBlobs_last (w : World) (dirname : String) (pre : List String)
    (f : String) (post : List String) (blobs : List (String × Bytes))
    (hpost : ∀ g ∈ post, w.toLower g ≠ w.toLower f) :
    mapGet (storedBlobs w dirname (pre ++ f :: post) blobs) (w.toLower f)
      = some (contentOf w dirname f) := by
  rw [storedBlobs_append, storedBlobs_cons,
    mapGet_storedBlobs_of_not_listed w dirname post _ _ hpost, mapGet_mapSet]
  simp

theorem length_storedBlobs (w : World) (dirname : String) (configFiles : List String) :
    (storedBlobs w dirname configFiles []).length
      = ((configFiles.map w.toLower).dedup).length := by
  have hnd := nodup_storedBlobs w dirname configFiles [] (by simp [mapKeys])
  have hperm : (mapKeys (storedBlobs w dirname configFiles [])).Perm
      ((configFiles.map w.toLower).dedup) := by
    rw [List.perm_ext_iff_of_nodup hnd (List.nodup_dedup _)]
    intro key
    rw [mem_mapKeys_storedBlobs, List.mem_dedup, List.mem_map]
    simp [mapKeys]
  have hlen := hperm.length_eq
  simpa [mapKeys] using hlen

/-- C18: when every listed file can be read, `readFiles` requests the path
`dirname ++ "/" ++ name` for each name as given, in listed order, and returns a
map that holds under each lower-cased name the content of the last listed file
with that lower-cased name: a lower-cased name is a key exactly when a listed
name lowers to it, no key occurs twice, and the number of sources is the number
of distinct lower-cased names. -/
theorem readFiles_stores_lowercased (w : World) (dirname : String)
    (configFiles : List String)
    (hall : ∀ f ∈ configFiles, ∃ b, w.getContents (dirname ++ "/" ++ f) = .ok b) :
    (readFiles w dirname configFiles).1
      = configFiles.map (fun f => Event.read (dirname ++ "/" ++ f)) ∧
    ∃ blobs, (readFiles w dirname configFiles).2 = Result.ok blobs ∧
      (mapKeys blobs).Nodup ∧
      (∀ key, key ∈ mapKeys blobs ↔ ∃ f ∈ configFiles, w.toLower f = key) ∧
      (∀ pre f post b, configFiles = pre ++ f :: post →
        (∀ g ∈ post, w.toLower g ≠ w.toLower f) →
        w.getContents (dirname ++ "/" ++ f) = .ok b →
        mapGet blobs (w.toLower f) = some b) ∧
      blobs.length = ((configFiles.map w.toLower).dedup).length := by
  have hread := readLoop_all_read w dirname configFiles [] hall
  unfold readFiles
  rw [hread]
  refine ⟨rfl, storedBlobs w dirname configFiles [], rfl,
    nodup_storedBlobs w dirname configFiles [] (by simp [mapKeys]), ?_, ?_,
    length_storedBlobs w dirname configFiles⟩
  · intro key
    rw [mem_mapKeys_storedBlobs]
    simp [mapKeys]
  · intro pre f post b hsplit hpost hb
    have hc : contentOf w dirname f = b := by
      unfold contentOf
      rw [hb]
    rw [hsplit, mapGet_storedBlobs_last w dirname pre f post [] hpost, hc]

/-- Witness of C18: `App.yml` and `app.yml` are both read, as given and in
listed order, and leave the single source `app.yml` with the content of the
file listed last. -/
theorem readFiles_stores_lowercased_witness :
    (readFiles caseWorld "conf" ["App.yml", "app.yml"]).1
      = [Event.read "conf/App.yml", Event.read "conf/app.yml"] ∧
    (readFiles caseWorld "conf" ["App.yml", "app.yml"]).2 = Result.ok [("app.yml", [20])] :=
  ⟨(readFiles_stores_lowercased caseWorld "conf" ["App.yml", "app.yml"]
    (by
      intro f hf
      simp only [List.mem_cons, List.mem_singleton, List.not_mem_nil, or_false] at hf
      rcases hf with h | h
      · exact ⟨[10], by rw [h]; rfl⟩
      · exact ⟨[20], by rw [h]; rfl⟩)).1, rfl⟩

/-! ## Order of the parsed sources -/

/-- C14: the configs returned by `parseBlobs` have no fixed order.  The two
documents are decoded in descending order of name, but they are returned in a
map, and a loop that ranges over that map may visit `config.dev.yml` first. -/
theorem parsed_configs_may_range_dev_first :
    parseBlobs sampleWorld Sched.insertion multiBlobs
      = ([Event.parse "config.yml", Event.parse "config.dev.yml"],
          Result.ok [("config.yml", [("username", Value.str "postgres")]),
                     ("config.dev.yml", [("username", Value.str "devuser")])]) ∧
    Sched.reversed.Valid ∧
    mapKeys (Sched.reversed.rangeConfigs
        [("config.yml", [("username", Value.str "postgres")]),
         ("config.dev.yml", [("username", Value.str "devuser")])])
      = ["config.dev.yml", "config.yml"] :=
  ⟨rfl, sched_reversed_valid, rfl⟩

/-! ## Leaves of the resolved tree -/

theorem leafOfIn_mapSet (leaf : String) (m : List (String × Value)) (k : String) (v : Value)
    (h : leafOfIn leaf (mapSet m k v) = true) :
    leafOf leaf v = true ∨ leafOfIn leaf m = true := by
  induction m with
  | nil =>
    left
    simpa [mapSet, leafOfIn] using h
  | cons e rest ih =>
    obtain ⟨k0, v0⟩ := e
    by_cases h0 : k0 = k
    · simp only [mapSet, h0, if_true, leafOfIn, Bool.or_eq_true] at h
      rcases h with h | h
      · exact Or.inl h
      · right
        simp only [leafOfIn, Bool.or_eq_true]
        exact Or.inr h
    · simp only [mapSet, h0, if_false, leafOfIn, Bool.or_eq_true] at h
      rcases h with h | h
      · right
        simp only [leafOfIn, Bool.or_eq_true]
        exact Or.inl h
      · rcases ih h with h1 | h1
        · exact Or.inl h1
        · right
          simp only [leafOfIn, Bool.or_eq_true]
          exact Or.inr h1

theorem not_isPrefixOf_of_findFrom_none (lit : List Char) (pos : Nat) (s : List Char)
    (h : findFrom lit pos s = none) : lit.isPrefixOf s = false := by
  cases hp : lit.isPrefixOf s with
  | false => rfl
  | true =>
    rw [findFrom_of_isPrefixOf lit pos s hp] at h
    cases h

theorem unprefixed_of_not_found (s : String)
    (hssm : FindStringIndex ssmPattern s = none) (henv : FindStringIndex envPattern s = none) :
    unprefixed s = true := by
  unfold unprefixed
  rw [not_isPrefixOf_of_findFrom_none _ _ _ hssm, not_isPrefixOf_of_findFrom_none _ _ _ henv]
  rfl

/-- When the providers never return a prefixed text, every leaf of a resolved
value, and of the map that a loop returns, is unprefixed. -/
theorem replace_unprefixed (w : World)
    (hssm : ∀ name v, w.getParameter name true = .ok v → unprefixed v = true)
    (henv : ∀ name v, w.environ name = some v → unprefixed v = true) :
    (∀ v, ∀ r, (replaceValue w v).2 = Result.ok r →
      ∀ leaf, leafOf leaf r = true → unprefixed leaf = true) ∧
    (∀ m, ∀ mapped r, (∀ leaf, leafOfIn leaf mapped = true → unprefixed leaf = true) →
      (replaceLoop w m mapped).2 = Result.ok r →
      ∀ leaf, leafOfIn leaf r = true → unprefixed leaf = true) := by
  apply value_entries_ind
  · intro v hv r hr leaf hleaf
    by_cases hstr : ∃ param, v = Value.str param
    · obtain ⟨param, rfl⟩ := hstr
      rcases replaceValue_str_cases w param with
        ⟨index, -, ⟨err, -, heq⟩ | ⟨val, hload, heq⟩⟩ | ⟨-, index, -, heq⟩ | ⟨h₁, h₂, heq⟩
      · rw [heq] at hr
        cases hr
      · rw [heq] at hr
        simp only [Result.ok.injEq] at hr
        subst hr
        have hl : val = leaf := by simpa [leafOf] using hleaf
        rw [loadSSMParameter_eq] at hload
        rw [← hl]
        exact hssm _ _ hload
      · rw [heq] at hr
        simp only [Result.ok.injEq] at hr
        subst hr
        have hl : Getenv w (sliceFrom param index.2) = leaf := by simpa [leafOf] using hleaf
        rw [← hl]
        unfold Getenv
        cases hget : w.environ (sliceFrom param index.2) with
        | none => rfl
        | some val => exact henv _ _ hget
      · rw [heq] at hr
        simp only [Result.ok.injEq] at hr
        subst hr
        have hl : param = leaf := by simpa [leafOf] using hleaf
        rw [← hl]
        exact unprefixed_of_not_found param h₁ h₂
    · push_neg at hstr
      rw [replaceValue_other w v hv hstr] at hr
      cases hr
  · intro m ih r hr leaf hleaf
    have ih' := ih []
    rw [replaceValue] at hr
    generalize replaceLoop w m [] = res at ih' hr
    obtain ⟨t, r'⟩ := res
    cases r' with
    | ok inner =>
      simp only [Result.ok.injEq] at hr
      subst hr
      exact ih' inner (fun l hl => by simp [leafOfIn] at hl) rfl leaf
        (by simpa [leafOf] using hleaf)
    | err e' => cases hr
    | panic msg => cases hr
  · intro mapped r hmapped hr leaf hleaf
    simp only [replaceLoop, Result.ok.injEq] at hr
    subst hr
    exact hmapped leaf hleaf
  · intro k v rest ihv ihrest mapped r hmapped hr leaf hleaf
    by_cases hk : ∃ key, k = Key.str key
    · obtain ⟨key, rfl⟩ := hk
      rw [replaceLoop_str_key] at hr
      generalize replaceValue w v = res at ihv hr
      obtain ⟨t, r'⟩ := res
      cases r' with
      | ok resolved =>
        refine ihrest (mapSet mapped key resolved) r ?_ hr leaf hleaf
        intro l hl
        rcases leafOfIn_mapSet l mapped key resolved hl with h | h
        · exact ihv resolved rfl l h
        · exact hmapped l h
      | err e' => cases hr
      | panic msg => cases hr
    · push_neg at hk
      rw [replaceLoop_other_key w k v rest mapped hk] at hr
      cases hr

/-- C11, as stated, fails: the walk is a single pass, so a text that a provider
returns is stored as it is.  In `indirectWorld` the resolved tree holds the
leaves `ssm:foo` and `env:HOME`. -/
theorem resolved_tree_may_hold_prefixed_leaves :
    replacePlaceholders indirectWorld
        [(Key.str "k", Value.str "env:INDIRECT"), (Key.str "j", Value.str "ssm:chained")]
      = ([Event.env "INDIRECT", Event.ssm "chained"],
          Result.ok [("k", Value.str "ssm:foo"), ("j", Value.str "env:HOME")]) ∧
    leafOfIn "ssm:foo" [("k", Value.str "ssm:foo"), ("j", Value.str "env:HOME")] = true ∧
    ssmPattern.isPrefixOf "ssm:foo".toList = true ∧
    leafOfIn "env:HOME" [("k", Value.str "ssm:foo"), ("j", Value.str "env:HOME")] = true ∧
    envPattern.isPrefixOf "env:HOME".toList = true :=
  ⟨rfl, rfl, rfl, rfl, rfl⟩

/-- C11, amended: for every merged tree and every behaviour of the environment
and the secret store in which no returned value begins with `ssm:` or `env:`,
if `replacePlaceholders` succeeds then no string leaf of the returned tree, at
any depth, begins with `ssm:` or `env:`. -/
theorem resolved_tree_unprefixed (w : World) (config : List (Key × Value))
    (tree : List (String × Value))
    (hssm : ∀ name v, w.getParameter name true = .ok v → unprefixed v = true)
    (henv : ∀ name v, w.environ name = some v → unprefixed v = true)
    (hok : (replacePlaceholders w config).2 = Result.ok tree) :
    ∀ leaf, leafOfIn leaf tree = true →
      ssmPattern.isPrefixOf leaf.toList = false ∧ envPattern.isPrefixOf leaf.toList = false := by
  intro leaf hleaf
  have h := (replace_unprefixed w hssm henv).2 config [] tree
    (fun l hl => by simp [leafOfIn] at hl) hok leaf hleaf
  unfold unprefixed at h
  simpa using h

/-- Witness of C11 amended: in `sampleWorld` the providers return `secret`
and `hello`; the leaf `hello` of the resolved tree is unprefixed. -/
theorem resolved_tree_unprefixed_witness :
    ssmPattern.isPrefixOf "hello".toList = false ∧
    envPattern.isPrefixOf "hello".toList = false :=
  resolved_tree_unprefixed sampleWorld
    [(Key.str "app", Value.map [(Key.str "greeting", Value.str "env:MY_VAR")]),
     (Key.str "token", Value.str "ssm:foo")]
    [("app", Value.strMapPtr [("greeting", Value.str "hello")]), ("token", Value.str "secret")]
    (by
      intro name v h
      by_cases hn : name = "foo"
      · simp only [sampleWorld, hn, if_true, Except.ok.injEq] at h
        rw [← h]
        rfl
      · simp [sampleWorld, hn] at h)
    (by
      intro name v h
      by_cases hn : name = "MY_VAR"
      · simp only [sampleWorld, hn, if_true, Option.some.injEq] at h
        rw [← h]
        rfl
      · simp [sampleWorld, hn] at h)
    rfl "hello" rfl

/-! ## Shape of the resolved tree -/

theorem mapSet_of_not_mem {κ ν : Type} [DecidableEq κ] (m : List (κ × ν)) (k : κ) (v : ν)
    (h : k ∉ mapKeys m) : mapSet m k v = m ++ [(k, v)] := by
  induction m with
  | nil => rfl
  | cons e rest ih =>
    obtain ⟨k0, v0⟩ := e
    have hk : k ≠ k0 ∧ k ∉ mapKeys rest := by
      simpa [mapKeys] using h
    simp only [mapSet, Ne.symm hk.1, if_false, List.cons_append]
    rw [ih hk.2]

theorem uniqueKeysIn_cons (k : Key) (v : Value) (rest : List (Key × Value))
    (h : uniqueKeysIn ((k, v) :: rest) = true) :
    k ∉ mapKeys rest ∧ uniqueKeys v = true ∧ uniqueKeysIn rest = true := by
  simpa [uniqueKeysIn] using h

theorem mapKeys_of_sameShapeIn (m : List (Key × Value)) :
    ∀ m' : List (String × Value), sameShapeIn m m' = true →
      mapKeys m = (mapKeys m').map Key.str := by
  induction m with
  | nil =>
    intro m' h
    cases m' with
    | nil => rfl
    | cons e' rest' => simp [sameShapeIn] at h
  | cons e rest ih =>
    intro m' h
    obtain ⟨k, v⟩ := e
    cases m' with
    | nil => simp [sameShapeIn] at h
    | cons e' rest' =>
      obtain ⟨k', v'⟩ := e'
      have h' : k = Key.str k' ∧ sameShape v v' = true ∧ sameShapeIn rest rest' = true := by
        simpa [sameShapeIn] using h
      have hrest := ih rest' h'.2.2
      simp only [mapKeys] at hrest ⊢
      simp only [List.map_cons, hrest, h'.1]

/-- A resolved value has the shape of its source, and a loop over a map of
fresh keys appends to `mapped` a map of the shape of the entries visited. -/
theorem replace_sameShape (w : World) :
    (∀ v, uniqueKeys v = true → ∀ r, (replaceValue w v).2 = Result.ok r →
      sameShape v r = true) ∧
    (∀ m, uniqueKeysIn m = true → ∀ mapped r,
      (∀ k, Key.str k ∈ mapKeys m → k ∉ mapKeys mapped) →
      (replaceLoop w m mapped).2 = Result.ok r →
      ∃ m', r = mapped ++ m' ∧ sameShapeIn m m' = true) := by
  apply value_entries_ind
  · intro v hv _ r hr
    by_cases hstr : ∃ param, v = Value.str param
    · obtain ⟨param, rfl⟩ := hstr
      rcases replaceValue_str_cases w param with
        ⟨index, -, ⟨err, -, heq⟩ | ⟨val, -, heq⟩⟩ | ⟨-, index, -, heq⟩ | ⟨-, -, heq⟩
      · rw [heq] at hr
        cases hr
      · rw [heq] at hr
        simp only [Result.ok.injEq] at hr
        subst hr
        rfl
      · rw [heq] at hr
        simp only [Result.ok.injEq] at hr
        subst hr
        rfl
      · rw [heq] at hr
        simp only [Result.ok.injEq] at hr
        subst hr
        rfl
    · push_neg at hstr
      rw [replaceValue_other w v hv hstr] at hr
      cases hr
  · intro m ih hu r hr
    have ih' := ih (by simpa [uniqueKeys] using hu) []
    rw [replaceValue] at hr
    generalize replaceLoop w m [] = res at ih' hr
    obtain ⟨t, r'⟩ := res
    cases r' with
    | ok inner =>
      simp only [Result.ok.injEq] at hr
      subst hr
      obtain ⟨m', hm', hshape⟩ := ih' inner (fun k _ => by simp [mapKeys]) rfl
      simp only [List.nil_append] at hm'
      subst hm'
      simpa [sameShape] using hshape
    | err e' => cases hr
    | panic msg => cases hr
  · intro _ mapped r _ hr
    simp only [replaceLoop, Result.ok.injEq] at hr
    subst hr
    exact ⟨[], by simp, rfl⟩
  · intro k v rest ihv ihrest hu mapped r hfresh hr
    obtain ⟨hnotin, huv, hurest⟩ := uniqueKeysIn_cons k v rest hu
    by_cases hk : ∃ key, k = Key.str key
    · obtain ⟨key, rfl⟩ := hk
      rw [replaceLoop_str_key] at hr
      have ihv' := ihv huv
      generalize replaceValue w v = res at ihv' hr
      obtain ⟨t, r'⟩ := res
      cases r' with
      | ok resolved =>
        have hshape := ihv' resolved rfl
        have hkey : key ∉ mapKeys mapped := hfresh key (by simp [mapKeys])
        simp only at hr
        rw [mapSet_of_not_mem mapped key resolved hkey] at hr
        have hfresh' : ∀ k, Key.str k ∈ mapKeys rest →
            k ∉ mapKeys (mapped ++ [(key, resolved)]) := by
          intro k' hk' hmem
          simp only [mapKeys, List.map_append, List.map_cons, List.map_nil, List.mem_append,
            List.mem_singleton] at hmem
          rcases hmem with h | h
          · exact hfresh k' (by
              simp only [mapKeys, List.map_cons, List.mem_cons]
              exact Or.inr hk') h
          · rw [h] at hk'
            exact hnotin hk'
        obtain ⟨m', hm', hrest⟩ := ihrest hurest _ r hfresh' hr
        refine ⟨(key, resolved) :: m', by rw [hm']; simp, ?_⟩
        simp [sameShapeIn, hshape, hrest]
      | err e' => cases hr
      | panic msg => cases hr
    · push_neg at hk
      rw [replaceLoop_other_key w k v rest mapped hk] at hr
      cases hr

/-- C13: `replacePlaceholders` preserves the shape of the tree.  On every tree
(a Go map, so without repeated keys at any depth) on which it succeeds, the
result has at every map the same keys as the input, entry by entry, a map where
the input has a map and a string where the input has a string; in particular
the keys of the result are the keys of the input. -/
theorem replacePlaceholders_preserves_shape (w : World) (config : List (Key × Value))
    (tree : List (String × Value))
    (hwf : uniqueKeysIn config = true)
    (hok : (replacePlaceholders w config).2 = Result.ok tree) :
    sameShapeIn config tree = true ∧ mapKeys config = (mapKeys tree).map Key.str := by
  obtain ⟨m', hm', hshape⟩ := (replace_sameShape w).2 config hwf [] tree
    (fun k _ => by simp [mapKeys]) hok
  simp only [List.nil_append] at hm'
  subst hm'
  exact ⟨hshape, mapKeys_of_sameShapeIn config tree hshape⟩

/-- Witness of C13: the resolved tree of `sampleWorld` has the keys `app` and
`token` of its source. -/
theorem replacePlaceholders_preserves_shape_witness :
    mapKeys [(Key.str "app", Value.map [(Key.str "greeting", Value.str "env:MY_VAR")]),
        (Key.str "token", Value.str "ssm:foo")]
      = (mapKeys [("app", Value.strMapPtr [("greeting", Value.str "hello")]),
          ("token", Value.str "secret")]).map Key.str :=
  (replacePlaceholders_preserves_shape sampleWorld
    [(Key.str "app", Value.map [(Key.str "greeting", Value.str "env:MY_VAR")]),
     (Key.str "token", Value.str "ssm:foo")]
    [("app", Value.strMapPtr [("greeting", Value.str "hello")]), ("token", Value.str "secret")]
    rfl rfl).2

/-! ## The leftmost occurrence -/

theorem findFrom_some_leftmost (lit : List Char) (s : List Char) :
    ∀ pos loc, findFrom lit pos s = some loc →
      ∃ pre post, Leftmost lit pre post s ∧
        loc = (pos + pre.length, pos + pre.length + lit.length) := by
  induction s with
  | nil =>
    intro pos loc h
    cases hp : lit.isPrefixOf ([] : List Char) with
    | false =>
      simp [findFrom, matchAt_of_not_isPrefixOf lit pos [] hp] at h
    | true =>
      rw [findFrom_of_isPrefixOf lit pos [] hp] at h
      have hlit : lit = [] := List.prefix_nil.1 (List.isPrefixOf_iff_prefix.1 hp)
      refine ⟨[], [], ⟨by simp [hlit], fun pre' post' _ => Nat.zero_le _⟩, ?_⟩
      simpa using h.symm
  | cons c cs ih =>
    intro pos loc h
    cases hp : lit.isPrefixOf (c :: cs) with
    | true =>
      rw [findFrom_of_isPrefixOf lit pos _ hp] at h
      obtain ⟨t, ht⟩ := List.isPrefixOf_iff_prefix.1 hp
      refine ⟨[], t, ⟨by simp [ht], fun pre' post' _ => Nat.zero_le _⟩, ?_⟩
      simpa using h.symm
    | false =>
      rw [findFrom_cons_of_not_isPrefixOf lit pos c cs hp] at h
      obtain ⟨pre, post, ⟨hsplit, hleft⟩, hloc⟩ := ih (pos + 1) loc h
      refine ⟨c :: pre, post, ⟨by simp [hsplit], ?_⟩, ?_⟩
      · intro pre' post' h'
        cases pre' with
        | nil =>
          have hpre : lit <+: c :: cs := ⟨post', by simpa using h'.symm⟩
          rw [List.isPrefixOf_iff_prefix.2 hpre] at hp
          cases hp
        | cons a as =>
          have hcs : cs = as ++ lit ++ post' := by
            simp only [List.cons_append, List.cons.injEq] at h'
            exact h'.2
          have := hleft as post' hcs
          simp only [List.length_cons]
          omega
      · rw [hloc]
        simp only [List.length_cons, Prod.mk.injEq]
        constructor <;> omega

theorem findFrom_none_iff (lit : List Char) (s : List Char) (pos : Nat) :
    findFrom lit pos s = none ↔ ¬ lit <:+: s := by
  constructor
  · intro h
    induction s generalizing pos with
    | nil =>
      intro hin
      have hlit : lit = [] := List.infix_nil.1 hin
      have hp : lit.isPrefixOf ([] : List Char) = true := by
        rw [hlit]
        rfl
      rw [findFrom_of_isPrefixOf lit pos [] hp] at h
      cases h
    | cons c cs ih =>
      have hp := not_isPrefixOf_of_findFrom_none lit pos _ h
      rw [findFrom_cons_of_not_isPrefixOf lit pos c cs hp] at h
      intro hin
      rcases List.infix_cons_iff.1 hin with h1 | h1
      · rw [List.isPrefixOf_iff_prefix.2 h1] at hp
        cases hp
      · exact ih _ h h1
  · intro hnot
    cases h : findFrom lit pos s with
    | none => rfl
    | some loc =>
      obtain ⟨pre, post, ⟨hsplit, -⟩, -⟩ := findFrom_some_leftmost lit s pos loc h
      exact absurd ⟨pre, post, hsplit.symm⟩ hnot

theorem leftmost_unique (lit pre post pre' post' s : List Char)
    (h : Leftmost lit pre post s) (h' : Leftmost lit pre' post' s) :
    pre = pre' ∧ post = post' := by
  have hlen : pre.length = pre'.length :=
    Nat.le_antisymm (h.2 pre' post' h'.1) (h'.2 pre post h.1)
  have heq : pre ++ (lit ++ post) = pre' ++ (lit ++ post') := by
    rw [← List.append_assoc, ← List.append_assoc, ← h.1, ← h'.1]
  obtain ⟨h₁, h₂⟩ := List.append_inj heq hlen
  exact ⟨h₁, List.append_cancel_left h₂⟩

theorem exists_leftmost (lit s : List Char) (h : lit <:+: s) :
    ∃ pre post, Leftmost lit pre post s := by
  cases hf : findFrom lit 0 s with
  | none => exact absurd h ((findFrom_none_iff lit s 0).1 hf)
  | some loc =>
    obtain ⟨pre, post, hleft, -⟩ := findFrom_some_leftmost lit s 0 loc hf
    exact ⟨pre, post, hleft⟩

theorem findStringIndex_of_leftmost (lit pre post : List Char) (v : String)
    (h : Leftmost lit pre post v.toList) :
    FindStringIndex lit v = some (pre.length, pre.length + lit.length) ∧
    sliceFrom v (pre.length + lit.length) = String.mk post := by
  constructor
  · unfold FindStringIndex
    cases hf : findFrom lit 0 v.toList with
    | none =>
      exact absurd ⟨pre, post, h.1.symm⟩ ((findFrom_none_iff lit v.toList 0).1 hf)
    | some loc =>
      obtain ⟨pre', post', hleft, hloc⟩ := findFrom_some_leftmost lit v.toList 0 loc hf
      obtain ⟨hpre, -⟩ := leftmost_unique lit pre' post' pre post v.toList hleft h
      rw [hloc, hpre]
      simp
  · unfold sliceFrom
    have hlen : pre.length + lit.length = (pre ++ lit).length := by simp
    rw [h.1, hlen, List.drop_left]

theorem findStringIndex_none_iff (lit : List Char) (v : String) :
    FindStringIndex lit v = none ↔ ¬ lit <:+: v.toList :=
  findFrom_none_iff lit v.toList 0

/-- C15: the exact rule for a string leaf `v`, wherever it stands in a loop.
If `v` contains `ssm:`, it has a leftmost occurrence and the secret store is
called with the text after it, also when `v` contains or begins with `env:`.
Otherwise, if `v` contains `env:`, it has a leftmost occurrence and the leaf
becomes the environment value of the text after it.  Otherwise the leaf is
stored unchanged and no provider is consulted. -/
theorem string_leaf_rule (w : World) (key v : String) (rest : List (Key × Value))
    (mapped : List (String × Value)) :
    (ssmPattern <:+: v.toList → ∃ pre post, Leftmost ssmPattern pre post v.toList) ∧
    (∀ pre post, Leftmost ssmPattern pre post v.toList →
      replaceLoop w ((Key.str key, Value.str v) :: rest) mapped
        = (match w.getParameter (String.mk post) true with
          | .error err => ([Event.ssm (String.mk post)], Result.err err)
          | .ok x =>
            (Event.ssm (String.mk post) ::
                (replaceLoop w rest (mapSet mapped key (Value.str x))).1,
              (replaceLoop w rest (mapSet mapped key (Value.str x))).2))) ∧
    (¬ ssmPattern <:+: v.toList → envPattern <:+: v.toList →
      ∃ pre post, Leftmost envPattern pre post v.toList) ∧
    (¬ ssmPattern <:+: v.toList → ∀ pre post, Leftmost envPattern pre post v.toList →
      replaceLoop w ((Key.str key, Value.str v) :: rest) mapped
        = (Event.env (String.mk post) ::
            (replaceLoop w rest
              (mapSet mapped key (Value.str (Getenv w (String.mk post))))).1,
           (replaceLoop w rest
              (mapSet mapped key (Value.str (Getenv w (String.mk post))))).2)) ∧
    (¬ ssmPattern <:+: v.toList → ¬ envPattern <:+: v.toList →
      replaceLoop w ((Key.str key, Value.str v) :: rest) mapped
        = replaceLoop w rest (mapSet mapped key (Value.str v))) := by
  refine ⟨exists_leftmost _ _, ?_, fun _ h => exists_leftmost _ _ h, ?_, ?_⟩
  · intro pre post hleft
    obtain ⟨hfind, hslice⟩ := findStringIndex_of_leftmost _ pre post v hleft
    rw [replaceLoop_str_key, replaceValue, hfind]
    simp only [hslice, loadSSMParameter_eq]
    cases w.getParameter (String.mk post) true <;> rfl
  · intro hno pre post hleft
    obtain ⟨hfind, hslice⟩ := findStringIndex_of_leftmost _ pre post v hleft
    rw [replaceLoop_str_key, replaceValue, (findStringIndex_none_iff _ v).2 hno, hfind]
    simp only [hslice]
    rfl
  · intro hno₁ hno₂
    rw [replaceLoop_str_key, replaceValue, (findStringIndex_none_iff _ v).2 hno₁,
      (findStringIndex_none_iff _ v).2 hno₂]
    simp only [List.nil_append]

/-- Witness of C15: in `env:ssm:foo` the leftmost `ssm:` starts after `env:`,
and the secret store of `sampleWorld` is asked for `foo`. -/
theorem string_leaf_rule_witness :
    replaceLoop sampleWorld [(Key.str "k", Value.str "env:ssm:foo")] []
      = ([Event.ssm "foo"], Result.ok [("k", Value.str "secret")]) :=
  (string_leaf_rule sampleWorld "k" "env:ssm:foo" [] []).2.1
    "env:".toList "foo".toList
    ⟨rfl, by
      intro pre' post' h
      by_contra hlt
      rcases pre' with _ | ⟨a, _ | ⟨b, _ | ⟨c, _ | ⟨d, r⟩⟩⟩⟩
      · have h' : "env:ssm:foo".toList = ssmPattern ++ post' := by simpa using h
        have h'' : ['e', 'n', 'v', ':', 's', 's', 'm', ':', 'f', 'o', 'o']
            = 's' :: 's' :: 'm' :: ':' :: post' := h'
        simp at h''
      · have h'' : ['e', 'n', 'v', ':', 's', 's', 'm', ':', 'f', 'o', 'o']
            = a :: 's' :: 's' :: 'm' :: ':' :: post' := h
        simp at h''
      · have h'' : ['e', 'n', 'v', ':', 's', 's', 'm', ':', 'f', 'o', 'o']
            = a :: b :: 's' :: 's' :: 'm' :: ':' :: post' := h
        simp at h''
      · have h'' : ['e', 'n', 'v', ':', 's', 's', 'm', ':', 'f', 'o', 'o']
            = a :: b :: c :: 's' :: 's' :: 'm' :: ':' :: post' := h
        simp at h''
      · exact hlt (by simp)⟩

end Gofigure
